import Mathlib

/-!
Verification of `get.go` of godoo: tag selection, version comparison and the
download walk.

A Go `string` is a finite sequence of bytes.  It is modelled as a list whose
elements stand for the bytes (a byte `b` is the character with code `b`), so
`len(s)` is `List.length`, `s[i:]` is `List.drop i` and the comparison of two
strings is the byte-wise lexicographic one.  A Go run-time panic (index or
slice out of range) is the result `none`.
-/

namespace Godoo

/-- A Go string: the list of its bytes. -/
abbrev GoString := List Char

/-! The Go standard library functions used by `get.go` -/

/-- Go `strings.HasPrefix(s, pre)`. -/
def HasPrefix : GoString → GoString → Bool
  | _, [] => true
  | [], _ :: _ => false
  | c :: s, d :: pre => c == d && HasPrefix s pre

/-- Go `strings.Index(s, substr)`: the index of the first instance of `substr`
in `s`; `none` stands for the result `-1`. -/
def Index : GoString → GoString → Option Nat
  | [], substr => if substr = [] then some 0 else none
  | c :: s, substr =>
    if HasPrefix (c :: s) substr then some 0
    else (Index s substr).map (· + 1)

/-- Go `strings.Contains(s, substr)`, which is `Index(s, substr) >= 0`. -/
def Contains (s substr : GoString) : Bool := (Index s substr).isSome

/-- The loop of Go `strings.genSplit` for a non-empty separator: cut `s` at
each successive first instance of `sep`, keeping `sepSave` bytes of the
separator in the piece before it.  The first argument bounds the number of
cuts; every cut consumes at least one byte, so `len(s)` cuts are enough. -/
def genSplit (sep : GoString) (sepSave : Nat) : Nat → GoString → List GoString
  | 0, s => [s]
  | n + 1, s =>
    match Index s sep with
    | none => [s]
    | some m => s.take (m + sepSave) :: genSplit sep sepSave n (s.drop (m + sep.length))

/-- Go `strings.Split(s, sep)` for a non-empty `sep`. -/
def Split (s sep : GoString) : List GoString := genSplit sep 0 s.length s

/-- Go `strings.SplitAfter(s, sep)` for a non-empty `sep`. -/
def SplitAfter (s sep : GoString) : List GoString := genSplit sep sep.length s.length s

/-- Go comparison `a < b` of two strings: byte-wise lexicographic. -/
def strLt : GoString → GoString → Bool
  | [], [] => false
  | [], _ :: _ => true
  | _ :: _, [] => false
  | a :: as, b :: bs => if a < b then true else if b < a then false else strLt as bs

/-- Go comparison `a <= b` of two strings. -/
def strLe (a b : GoString) : Bool := !strLt b a

/-- The decimal value of a run of ASCII digits; `none` when the run is empty
or holds a byte that is not a digit (the syntax error of `strconv`). -/
def parseDigits : GoString → Option Nat
  | [] => none
  | cs =>
    cs.foldl
      (fun acc c =>
        match acc with
        | none => none
        | some n => if 48 ≤ c.toNat ∧ c.toNat ≤ 57 then some (n * 10 + (c.toNat - 48)) else none)
      (some 0)

/-- Go `strconv.Atoi(s)` with a 64-bit `int`: the value, and whether the
error result is non-nil.  A syntax error gives the value `0`, a range error
the nearest representable value. -/
def Atoi (s : GoString) : Int × Bool :=
  let neg : Bool := s.head? = some '-'
  let body : GoString := if s.head? = some '-' ∨ s.head? = some '+' then s.drop 1 else s
  match parseDigits body with
  | none => (0, true)
  | some n =>
    if neg then
      if n ≤ 2 ^ 63 then (-(n : Int), false) else (-(2 ^ 63 : Int), true)
    else
      if n < 2 ^ 63 then ((n : Int), false) else ((2 ^ 63 - 1 : Int), true)

/-! `goTag` -/

/-- A character class: the regular expression matching any one byte of `cs`. -/
def oneOf (cs : List Char) : RegularExpression Char :=
  cs.foldr (fun c r => RegularExpression.char c + r) 0

/-- The class `[0-9]`. -/
def digit09 : RegularExpression Char := oneOf "0123456789".toList

/-- The class `[1-9]`. -/
def digit19 : RegularExpression Char := oneOf "123456789".toList

/-- The regular expression of `goTag`, `^((0|[1-9][0-9]{0,2})\.)*([0-9])$`;
the anchors make it a match of the whole string, and `[0-9]{0,2}` is two
optional digits. -/
def goTagRe : RegularExpression Char :=
  RegularExpression.star
      ((RegularExpression.char '0' + digit19 * ((1 + digit09) * (1 + digit09)))
        * RegularExpression.char '.')
    * digit09

/-- The call `goTag.MatchString(s)`. -/
def goTag (s : GoString) : Bool := goTagRe.rmatch s

/-! `cmpGoVersion` and `selectTag` -/

/-- The loop `for i := 0; i < len(xx) && i < len(yy); i++` of `cmpGoVersion`,
run over the indices it visits.  `some (some r)` is the early `return r`,
`some none` is leaving the loop at its end, `none` is an index out of range. -/
def cmpLoop (xx yy : List GoString) : List Nat → Option (Option Int)
  | [] => some none
  | i :: is =>
    match xx[i]?, yy[i]? with
    | some xs, some ys =>
      let xi := (Atoi xs).1
      let yi := (Atoi ys).1
      if xi < yi then some (some (-1))
      else if xi > yi then some (some 1)
      else cmpLoop xx yy is
    | _, _ => none

/-- The function `cmpGoVersion(x, y)`. -/
def cmpGoVersion (x y : GoString) : Option Int :=
  if !goTag x then some (-1)
  else if !goTag y then some 1
  else
    let xx := Split x ".".toList
    let yy := Split y ".".toList
    match cmpLoop xx yy (List.range (min xx.length yy.length)) with
    | none => none
    | some (some r) => some r
    | some none =>
      if xx.length < yy.length then some (-1)
      else if xx.length > yy.length then some 1
      else some 0

/-- The constant `wMark` of `selectTag`. -/
def wMark : GoString := ".weekly.".toList

/-- The first loop of `selectTag` (the weekly form), from the current value
of `match`.  The slice `t[len(p):]` is evaluated only when `match < t`. -/
def weeklyLoop (p v : GoString) : List GoString → GoString → Option GoString
  | [], m => some m
  | t :: ts, m =>
    if !Contains t p then weeklyLoop p v ts m
    else if strLt m t then
      if p.length ≤ t.length then
        if strLe (t.drop p.length) v then weeklyLoop p v ts t else weeklyLoop p v ts m
      else none
    else weeklyLoop p v ts m

/-- The second loop of `selectTag` (the dotted-numeric form), from the
current value of `match`. -/
def dottedLoop (v : GoString) : List GoString → GoString → Option GoString
  | [], m => some m
  | t :: ts, m =>
    if !goTag t then dottedLoop v ts m
    else
      match cmpGoVersion m t with
      | none => none
      | some c1 =>
        if c1 < 0 then
          match cmpGoVersion t v with
          | none => none
          | some c2 => if c2 ≤ 0 then dottedLoop v ts t else dottedLoop v ts m
        else dottedLoop v ts m

/-- The weekly block of `selectTag`: the value of `match` after it. -/
def selectWeekly (goVersion : GoString) (tags : List GoString) : Option GoString :=
  if Contains goVersion wMark then
    match (Split goVersion wMark)[0]? with
    | none => none
    | some b =>
      if goTag b then
        match (SplitAfter goVersion wMark)[0]?, (SplitAfter goVersion wMark)[1]? with
        | some p, some v => weeklyLoop p v tags []
        | _, _ => none
      else some []
  else some []

/-- The function `selectTag(goVersion, tags)`. -/
def selectTag (goVersion : GoString) (tags : List GoString) : Option GoString :=
  match selectWeekly goVersion tags with
  | none => none
  | some m => if goTag goVersion then dottedLoop goVersion tags m else some m

/-! The download walk

The collaborators of `get.go` that live outside it (the package loader, the
pattern matchers, the version-control drivers, the file system) are the
fields of `Externals`, acting on an external world `W`.  The state that
`get.go` itself owns is `State`. -/

/-- Modelled from the spec: the type `importStack`, declared outside
`get.go`: an ordered sequence of identifiers. -/
abbrev importStack := List GoString

/-- Modelled from the spec: `importStack.push`, declared outside `get.go`:
"`push(id)` appends id". -/
def importStack.push (s : importStack) (p : GoString) : importStack := s ++ [p]

/-- Modelled from the spec: `importStack.pop`, declared outside `get.go`:
"`pop()` removes the most recently pushed id". -/
def importStack.pop (s : importStack) : importStack := s.dropLast

/-- Modelled from the spec: `importStack.copy`, declared outside `get.go`:
"`copy()` returns an immutable snapshot". -/
def importStack.copy (s : importStack) : importStack := s

/-- Modelled from the spec: the type `PackageError`, declared outside
`get.go`: "a structured error carrying a snapshot of `stack` and the
underlying message". -/
structure PackageError where
  ImportStack : importStack
  Err : GoString
deriving DecidableEq

/-- Modelled from the spec: the type `Package`, declared outside `get.go`:
"{import path, resolved local directory or empty, standard/builtin flag,
declared-dependency list, load error or none}", with the source root
`p.build.SrcRoot`.  `deps` holds the `ImportPath` of every element of
`p.deps`, the only field `download` reads of them. -/
structure Package where
  ImportPath : GoString
  Dir : GoString
  Standard : Bool
  SrcRoot : GoString
  deps : List GoString
  Error : Option PackageError
deriving DecidableEq

/-- The result `rr` of `repoRootForImportPath`; a `*vcsCmd` is named by its
field `cmd`. -/
structure RepoRoot where
  vcs : GoString
  repo : GoString
  root : GoString
deriving DecidableEq

/-- What the walk does that is observable from outside `get.go`, in order. -/
inductive Event where
  | enter (arg : GoString) (stk : importStack)
  | load (arg : GoString) (stk : importStack)
  | fetch (importPath : GoString)
  | rootCached (root : GoString)
  | create (root repo : GoString)
  | update (root : GoString)
  | tags (root : GoString)
  | tagSync (root tag : GoString)
  | print (msg : GoString)
deriving DecidableEq

/-- The driver operations (create, update, list-tags, tag-sync) on `root`. -/
def Event.isDriverOpOn (root : GoString) : Event → Bool
  | .create r _ => r == root
  | .update r => r == root
  | .tags r => r == root
  | .tagSync r _ => r == root
  | _ => false

/-- The steps of the walk itself: entering `download`, loading a package,
starting a fetch. -/
def Event.isWalk : Event → Bool
  | .enter _ _ => true
  | .load _ _ => true
  | .fetch _ => true
  | _ => false

/-- The collaborators of `get.go`; an `Option GoString` result is a Go
`error` (`none` is `nil`). -/
structure Externals (W : Type) where
  getU : Bool
  buildV : Bool
  buildN : Bool
  goroot : GoString
  gopathList : List GoString
  Join : GoString → GoString → GoString
  parentDir : GoString → GoString
  Stat : GoString → W → Option Bool
  MkdirAll : GoString → W → Option GoString × W
  loadPackage : GoString → importStack → W → Package × W
  importPathsNoDotExpansion : List GoString → List GoString
  matchPackages : GoString → W → List GoString
  matchPackagesInFS : GoString → W → List GoString
  evictPackage : GoString → W → W
  vcsForDir : Package → W → Except GoString (GoString × GoString)
  repoRootForImportPath : GoString → W → Except GoString RepoRoot × W
  vcsCreate : GoString → GoString → GoString → W → Option GoString × W
  vcsDownload : GoString → GoString → W → Option GoString × W
  vcsTags : GoString → GoString → W → Except GoString (List GoString) × W
  vcsTagSync : GoString → GoString → GoString → W → Option GoString × W

/-- The state of one run of `runGet`: the import stack `stk`, the maps
`downloadCache` and `downloadRootCache` (a missing key reads `false`), the
errors reported through `errorf`, the events so far, the external world. -/
structure State (W : Type) where
  stk : importStack
  downloadCache : GoString → Bool
  downloadRootCache : GoString → Bool
  errors : List PackageError
  trace : List Event
  world : W

/-- Go `build.IsLocalImport(path)`. -/
def IsLocalImport (path : GoString) : Bool :=
  path == ".".toList || path == "..".toList ||
    HasPrefix path "./".toList || HasPrefix path "../".toList

/-- The value of `vers` in `downloadPackage`: `"9.0"` cut at its first space. -/
def vers : GoString :=
  match Index "9.0".toList " ".toList with
  | some i => "9.0".toList.take i
  | none => "9.0".toList

/-- The choice of `p.build.SrcRoot` in `downloadPackage` when it is empty. -/
def chooseSrcRoot {W : Type} (ext : Externals W) : GoString :=
  match ext.gopathList with
  | l0 :: _ => if l0 ≠ ext.goroot then l0 else ext.Join ext.goroot "oPath".toList
  | [] => ext.Join ext.goroot "oPath".toList

/-- The block `if err != nil { ... } else { ... }` of `downloadPackage`, entered
when `os.Stat(meta)` did not find a non-directory: a new checkout when the
metadata directory is missing, an update when it is there. -/
def createOrUpdate {W : Type} (ext : Externals W) (vcs repo root meta : GoString)
    (s : State W) : Option GoString × State W :=
  if ext.Stat meta s.world = none then
    if (ext.Stat root s.world).isSome then
      (some (root ++ " exists but ".toList ++ meta ++ " does not - stale checkout?".toList), s)
    else
      match ext.MkdirAll (ext.parentDir root) s.world with
      | (some e, w) => (some e, { s with world := w })
      | (none, w) =>
        match ext.vcsCreate vcs root repo w with
        | (e, w) => (e, { s with world := w, trace := s.trace ++ [Event.create root repo] })
  else
    match ext.vcsDownload vcs root s.world with
    | (e, w) => (e, { s with world := w, trace := s.trace ++ [Event.update root] })

/-- The end of `downloadPackage`: under `-n` only a line is printed, otherwise
the tags are listed and the checkout is synced to `selectTag(vers, tags)`. -/
def syncTag {W : Type} (ext : Externals W) (vcs root : GoString) (s : State W) :
    Option (Option GoString × State W) :=
  if ext.buildN then
    some (none, { s with trace := s.trace ++
      [Event.print ("# cd ".toList ++ root ++ "; ".toList ++ vcs ++ " sync/update\n".toList)] })
  else
    match ext.vcsTags vcs root s.world with
    | (.error e, w) =>
      some (some e, { s with world := w, trace := s.trace ++ [Event.tags root] })
    | (.ok tags, w) =>
      match selectTag vers tags with
      | none => none
      | some tag =>
        match ext.vcsTagSync vcs root tag w with
        | (e, w) =>
          some (e, { s with world := w,
                            trace := s.trace ++ [Event.tags root, Event.tagSync root tag] })

/-- The part of `downloadPackage` after the root cache has been updated: the
check of the destination, create or update, and the tag sync. -/
def syncRoot {W : Type} (ext : Externals W) (vcs repo rootPath root : GoString)
    (s : State W) : Option (Option GoString × State W) :=
  let s := if ext.buildV then
      { s with trace := s.trace ++ [Event.print (rootPath ++ " (download)\n".toList)] }
    else s
  let meta := ext.Join root ('.' :: vcs)
  if ext.Stat meta s.world = some false then
    some (some (meta ++ " exists but is not a directory".toList), s)
  else
    match createOrUpdate ext vcs repo root meta s with
    | (some e, s) => some (some e, s)
    | (none, s) => syncTag ext vcs root s

/-- What `downloadPackage` has worked out when it reaches the root cache: the
driver, the repository, the root import path, the package with its source
root set, and the destination `root`. -/
structure Resolved where
  vcs : GoString
  repo : GoString
  rootPath : GoString
  p : Package
  root : GoString
deriving DecidableEq

/-- The first part of `downloadPackage`, up to
`root := filepath.Join(p.build.SrcRoot, rootPath)`: an error is the early
`return err`. -/
def resolveRoot {W : Type} (ext : Externals W) (p : Package) (w : W) :
    Except GoString Resolved × W :=
  let resolved : Except GoString (GoString × GoString × GoString) × W :=
    if p.SrcRoot ≠ [] then
      match ext.vcsForDir p w with
      | .error e => (.error e, w)
      | .ok (vcs, rootPath) => (.ok (vcs, "<local>".toList, rootPath), w)
    else
      match ext.repoRootForImportPath p.ImportPath w with
      | (.error e, w) => (.error e, w)
      | (.ok rr, w) => (.ok (rr.vcs, rr.repo, rr.root), w)
  match resolved with
  | (.error e, w) => (.error e, w)
  | (.ok (vcs, repo, rootPath), w) =>
    let p := if p.SrcRoot = [] then { p with SrcRoot := chooseSrcRoot ext } else p
    (.ok { vcs := vcs, repo := repo, rootPath := rootPath, p := p,
           root := ext.Join p.SrcRoot rootPath }, w)

/-- The assignment `m[k] = true` on a `map[string]bool`. -/
def mapSet (m : GoString → Bool) (k : GoString) : GoString → Bool :=
  fun x => if x = k then true else m x

/-- The function `downloadPackage(p)`: the error result, the package `p` after the call
(its `build.SrcRoot` may have been set), and the state. -/
def downloadPackage {W : Type} (ext : Externals W) (p : Package) (s : State W) :
    Option (Option GoString × Package × State W) :=
  match resolveRoot ext p s.world with
  | (.error e, w) => some (some e, p, { s with world := w })
  | (.ok r, w) =>
    let s := { s with world := w }
    if s.downloadRootCache r.root then some (none, r.p, s)
    else
      let s := { s with downloadRootCache := mapSet s.downloadRootCache r.root,
                        trace := s.trace ++ [Event.rootCached r.root] }
      match syncRoot ext r.vcs r.repo r.rootPath r.root s with
      | none => none
      | some (e, s) => some (e, r.p, s)

/-- A sequence of `downloadPackage` calls of one run, each made for its
package in the world of its moment; `downloadRootCache` lives on from call to
call.  The result lists, call by call, the events of that call. -/
def downloadPackageSeq {W : Type} (ext : Externals W) :
    List (Package × W) → State W → Option (List (List Event))
  | [], _ => some []
  | (p, w) :: rest, s =>
    match downloadPackage ext p { s with world := w } with
    | none => none
    | some (_, _, s1) =>
      match downloadPackageSeq ext rest s1 with
      | none => none
      | some segs => some (s1.trace.drop s.trace.length :: segs)

/-- The loop of `download` that clears the package cache entries of `args`. -/
def evictAll {W : Type} (ext : Externals W) (args : List GoString) (w : W) : W :=
  args.foldl (fun w arg => ext.evictPackage arg w) w

/-- The loop of `download` that reloads `args` into `pkgs`: each `arg` is
pushed, loaded and popped, and a load error is reported and skipped. -/
def reloadAll {W : Type} (ext : Externals W) :
    List GoString → List Package → State W → List Package × State W
  | [], pkgs, s => (pkgs, s)
  | arg :: args, pkgs, s =>
    let stk1 := importStack.push s.stk arg
    let (p, w) := ext.loadPackage arg stk1 s.world
    let s := { s with stk := importStack.pop stk1, world := w,
                      trace := s.trace ++ [Event.load arg stk1] }
    match p.Error with
    | some e => reloadAll ext args pkgs { s with errors := s.errors ++ [e] }
    | none => reloadAll ext args (pkgs ++ [p]) s

/-- The block `if p.Dir == "" || *getU` of `download`.  The result is the
state and, unless the block returned from `download`, the new `pkgs`. -/
def fetchBlock {W : Type} (ext : Externals W) (arg : GoString) (p : Package)
    (wildcardOkay : Bool) (s : State W) : Option (State W × Option (List Package)) :=
  let s := { s with stk := importStack.push s.stk p.ImportPath,
                    trace := s.trace ++ [Event.fetch p.ImportPath] }
  match downloadPackage ext p s with
  | none => none
  | some (some err, _, s) =>
    let s := { s with errors := s.errors ++ [PackageError.mk (importStack.copy s.stk) err] }
    some ({ s with stk := importStack.pop s.stk }, none)
  | some (none, _, s) =>
    let args : List GoString :=
      if wildcardOkay && Contains arg "...".toList then
        if IsLocalImport arg then ext.matchPackagesInFS arg s.world
        else ext.matchPackages arg s.world
      else [arg]
    let s := { s with world := evictAll ext args s.world }
    match reloadAll ext args [] s with
    | (pkgs, s) => some (s, some pkgs)

/-- The function `download(arg, stk)`.  The first argument bounds the depth of the
recursion; `none` is a call that does not return within it (or a panic). -/
def download {W : Type} (ext : Externals W) : Nat → GoString → State W → Option (State W)
  | 0, _, _ => none
  | fuel + 1, arg, s =>
    let s := { s with trace := s.trace ++ [Event.enter arg s.stk] }
    match ext.loadPackage arg s.stk s.world with
    | (p, w) =>
      let s := { s with world := w, trace := s.trace ++ [Event.load arg s.stk] }
      if p.Standard then some s
      else if s.downloadCache arg then some s
      else
        let s := { s with downloadCache := mapSet s.downloadCache arg }
        let wildcardOkay : Bool := s.stk.length == 0
        let r : Option (State W × Option (List Package)) :=
          if p.Dir = [] ∨ ext.getU = true then fetchBlock ext arg p wildcardOkay s
          else some (s, some [p])
        match r with
        | none => none
        | some (s, none) => some s
        | some (s, some pkgs) =>
          pkgs.foldlM (fun s p => p.deps.foldlM (fun s dep => download ext fuel dep s) s) s

/-- The function `downloadPaths(args)`. -/
def downloadPaths {W : Type} (ext : Externals W) (args : List GoString) (w : W) :
    List GoString :=
  (ext.importPathsNoDotExpansion args).foldl
    (fun out a =>
      if Contains a "...".toList then
        let expand := if IsLocalImport a then ext.matchPackagesInFS a w else ext.matchPackages a w
        if 0 < expand.length then out ++ expand else out ++ [a]
      else out ++ [a])
    []

/-- The state in which `download(arg, stk)`, entered in state `s`, calls
`downloadPackage(p)` once the loader has returned `p` and the world `w`. -/
def stateAtFetch {W : Type} (arg : GoString) (p : Package) (w : W) (s : State W) : State W :=
  { stk := importStack.push s.stk p.ImportPath,
    downloadCache := mapSet s.downloadCache arg,
    downloadRootCache := s.downloadRootCache,
    errors := s.errors,
    trace := s.trace ++ [Event.enter arg s.stk] ++ [Event.load arg s.stk]
      ++ [Event.fetch p.ImportPath],
    world := w }

/-- The state in which `runGet` starts: empty stack, empty caches. -/
def initialState {W : Type} (w : W) : State W :=
  { stk := [], downloadCache := fun _ => false, downloadRootCache := fun _ => false,
    errors := [], trace := [], world := w }

/-- Phase 1 of `runGet`: `download` of each element of `downloadPaths(args)`
in turn, on one import stack that starts empty and with both caches empty. -/
def runGet {W : Type} (ext : Externals W) (fuel : Nat) (args : List GoString) (w : W) :
    Option (State W) :=
  (downloadPaths ext args w).foldlM (fun s arg => download ext fuel arg s) (initialState w)

/-! The specification side: the forms and the comparator in its own words -/

/-- An ASCII decimal digit, `'0'` to `'9'`. -/
def isDigit (c : Char) : Bool := decide (48 ≤ c.toNat) && decide (c.toNat ≤ 57)

/-- A non-negative decimal integer written without unnecessary leading
zeros: a non-empty run of digits that is `"0"` or does not start with `'0'`. -/
def isNumeral (c : GoString) : Bool :=
  !c.isEmpty && c.all isDigit && (c == ['0'] || c.head? != some '0')

/-- The dotted-numeric form as the specification words it: a non-empty
dot-separated sequence of non-negative integers, each written without
unnecessary leading zeros. -/
def specDottedNumeric (s : GoString) : Bool := (s.splitOn '.').all isNumeral

/-- The dotted-numeric form with the two size limits of the pattern of
`goTag`: every integer but the last has at most three digits, and the last
is a single digit. -/
def smallDottedNumeric (s : GoString) : Bool :=
  ((s.splitOn '.').dropLast.all fun c => isNumeral c && decide (c.length ≤ 3)) &&
    ((s.splitOn '.').getLast?.any fun c => isNumeral c && decide (c.length = 1))

/-- The non-negative integer that a run of decimal digits denotes. -/
def decimalValue (c : GoString) : Nat := c.foldl (fun n d => 10 * n + (d.toNat - 48)) 0

/-- The sequence of integers of a dotted-numeric string, left to right. -/
def versionSeq (s : GoString) : List Nat := (s.splitOn '.').map decimalValue

/-- The comparison of two integer sequences as the specification words it:
position by position from the left, the first unequal position decides, a
sequence that is a strict prefix of the other is the smaller. -/
def compareSeq : List Nat → List Nat → Int
  | [], [] => 0
  | [], _ :: _ => -1
  | _ :: _, [] => 1
  | a :: as, b :: bs => if a < b then -1 else if b < a then 1 else compareSeq as bs

/-- The comparator of the specification: a malformed string is less than a
well-formed one, a well-formed one is greater than a malformed one, and two
well-formed strings compare as their integer sequences.  The specification
leaves the comparison of two malformed strings open: `none`. -/
def specCompare (x y : GoString) : Option Int :=
  if goTag x = false ∧ goTag y = false then none
  else if goTag x = false then some (-1)
  else if goTag y = false then some 1
  else some (compareSeq (versionSeq x) (versionSeq y))

/-- The test `cmpGoVersion(x, y) <= 0`. -/
def cmpLe (x y : GoString) : Bool :=
  match cmpGoVersion x y with
  | some c => decide (c ≤ 0)
  | none => false

/-! A small world to run the walk in -/

/-- The loader of the small world: `a` and `b` import each other, `c` imports
nothing, none of the three is on disk; everything else is standard. -/
def exampleLoad (arg : GoString) : Package :=
  if arg = "a".toList then
    { ImportPath := "a".toList, Dir := [], Standard := false, SrcRoot := [],
      deps := ["b".toList], Error := none }
  else if arg = "b".toList then
    { ImportPath := "b".toList, Dir := [], Standard := false, SrcRoot := [],
      deps := ["a".toList], Error := none }
  else if arg = "c".toList then
    { ImportPath := "c".toList, Dir := [], Standard := false, SrcRoot := [],
      deps := [], Error := none }
  else
    { ImportPath := arg, Dir := "/go/src".toList, Standard := true, SrcRoot := "/go".toList,
      deps := [], Error := none }

/-- The small world: every fetch succeeds, every repository has the tags
`8.0` and `9.0`, and the workspace list is the installation root followed by
`/w`. -/
def exampleExt : Externals Unit where
  getU := false
  buildV := false
  buildN := false
  goroot := "/go".toList
  gopathList := ["/go".toList, "/w".toList]
  Join := fun a b => a ++ '/' :: b
  parentDir := fun a => a
  Stat := fun _ _ => none
  MkdirAll := fun _ w => (none, w)
  loadPackage := fun arg _ w => (exampleLoad arg, w)
  importPathsNoDotExpansion := fun args => args
  matchPackages := fun _ _ => []
  matchPackagesInFS := fun _ _ => []
  evictPackage := fun _ w => w
  vcsForDir := fun _ _ => .error "no checkout".toList
  repoRootForImportPath := fun path w =>
    (.ok { vcs := "git".toList, repo := "https://example.org/".toList ++ path, root := path }, w)
  vcsCreate := fun _ _ _ w => (none, w)
  vcsDownload := fun _ _ w => (none, w)
  vcsTags := fun _ _ w => (.ok ["8.0".toList, "9.0".toList], w)
  vcsTagSync := fun _ _ _ w => (none, w)

/-- The small world with a resolver that recognises no import path, so that
every fetch fails. -/
def failingExt : Externals Unit :=
  { exampleExt with
    repoRootForImportPath := fun _ w => (.error "unrecognized import path".toList, w) }

/-- The choice of the source root as the specification words it: the first
entry of the workspace-path list that differs from the installation root,
and the fixed subdirectory only when no entry differs. -/
def specSrcRoot {W : Type} (ext : Externals W) : GoString :=
  match ext.gopathList.find? (fun l => l ≠ ext.goroot) with
  | some l => l
  | none => ext.Join ext.goroot "oPath".toList

/-! Auxiliary notions of the proofs -/

/-- The first position at which two integer sequences differ, as a sign. -/
def firstDiff : List Nat → List Nat → Option Int
  | a :: as, b :: bs => if a < b then some (-1) else if b < a then some 1 else firstDiff as bs
  | _, _ => none

/-- What a part of the walk leaves untouched, and what it adds to the trace. -/
def Frame {W : Type} (root : Option GoString) (s s' : State W) : Prop :=
  s'.stk = s.stk ∧ s'.downloadCache = s.downloadCache ∧ s'.errors = s.errors ∧
    ∃ evs, s'.trace = s.trace ++ evs ∧
      ∀ ev ∈ evs, ev.isWalk = false ∧ (∀ r, ev ≠ Event.rootCached r) ∧
        ∀ r, ev.isDriverOpOn r = true → some r = root

/-- A step that changes the world and appends driver events on `root`. -/
def SyncFrame {W : Type} (root : GoString) (s s' : State W) : Prop :=
  s'.downloadRootCache = s.downloadRootCache ∧ Frame (some root) s s'

/-- The number of calls of a sequence that ran a driver operation on `root`. -/
def callsOn (root : GoString) (segs : List (List Event)) : Nat :=
  (segs.filter (fun seg => seg.any (Event.isDriverOpOn root))).length

/-- A package that the loader has returned. -/
def Loaded {W : Type} (ext : Externals W) (q : Package) : Prop :=
  ∃ a stk w, q = (ext.loadPackage a stk w).1

/-- The number of identifiers of `nodes` that `downloadCache` does not hold. -/
def unvisited (nodes : List GoString) (c : GoString → Bool) : Nat :=
  (nodes.toFinset.filter (fun n => c n = false)).card

/-! Theorems -/

theorem dot_toList : ".".toList = ['.'] := rfl

theorem Index_dot_none (s : GoString) (h : '.' ∉ s) : Index s ['.'] = none := by
  induction s with
  | nil => simp [Index]
  | cons c s ih =>
    simp only [List.mem_cons, not_or] at h
    simp [Index, HasPrefix, h.1, ih h.2]
    exact fun hc => h.1 hc.symm

theorem Index_dot_append (c rest : GoString) (h : '.' ∉ c) :
    Index (c ++ '.' :: rest) ['.'] = some c.length := by
  induction c with
  | nil => simp [Index, HasPrefix]
  | cons a c ih =>
    simp only [List.mem_cons, not_or] at h
    have : ¬ a = '.' := fun hc => h.1 hc.symm
    simp [Index, HasPrefix, this, ih h.2]

theorem first_dot (s : GoString) (h : '.' ∈ s) :
    ∃ c rest, '.' ∉ c ∧ s = c ++ '.' :: rest := by
  induction s with
  | nil => simp at h
  | cons a s ih =>
    by_cases ha : a = '.'
    · exact ⟨[], s, by simp, by simp [ha]⟩
    · have hs : '.' ∈ s := by
        rcases List.mem_cons.mp h with h | h
        · exact absurd h.symm ha
        · exact h
      obtain ⟨c, rest, hc, rfl⟩ := ih hs
      refine ⟨a :: c, rest, ?_, by simp⟩
      simp only [List.mem_cons, not_or]
      exact ⟨fun e => ha e.symm, hc⟩

theorem nodot_pred (c : GoString) (hc : '.' ∉ c) : ∀ x ∈ c, ¬ ((x == '.') = true) := by
  intro x hx e
  have := eq_of_beq e
  subst this
  exact hc hx

theorem genSplit_dot (n : Nat) (s : GoString) (h : s.length ≤ n) :
    genSplit ['.'] 0 n s = s.splitOn '.' := by
  induction n generalizing s with
  | zero =>
    have : s = [] := List.length_eq_zero.mp (by omega)
    subst this; rfl
  | succ n ih =>
    by_cases hd : '.' ∈ s
    · obtain ⟨c, rest, hc, rfl⟩ := first_dot s hd
      have hlen : rest.length ≤ n := by simp at h; omega
      rw [genSplit, Index_dot_append c rest hc]
      simp only [Nat.add_zero, List.take_left', List.length_singleton]
      rw [List.splitOn, List.splitOnP_first _ _ (nodot_pred c hc) '.' (by simp)]
      have : List.drop (c.length + 1) (c ++ '.' :: rest) = rest := by
        rw [List.drop_append_eq_append_drop]; simp
      rw [this, ih rest hlen]; rfl
    · rw [genSplit, Index_dot_none s hd]
      rw [List.splitOn, List.splitOnP_eq_single _ s (nodot_pred s hd)]

theorem Split_dot (s : GoString) : Split s ".".toList = s.splitOn '.' :=
  genSplit_dot s.length s (le_refl _)

theorem mem_oneOf (cs : List Char) (x : GoString) :
    x ∈ (oneOf cs).matches' ↔ ∃ c ∈ cs, x = [c] := by
  induction cs with
  | nil => simp [oneOf]
  | cons a cs ih =>
    have : oneOf (a :: cs) = RegularExpression.char a + oneOf cs := rfl
    rw [this, RegularExpression.matches'_add, Language.mem_add, ih]
    simp only [RegularExpression.matches'_char, List.mem_cons, exists_eq_or_imp]
    exact Iff.rfl

theorem char_of_toNat_eq (c : Char) (n : Nat) (h : c.toNat = n) : c = Char.ofNat n := by
  subst h
  exact (Char.ofNat_toNat c).symm

theorem mem_digits (c : Char) : c ∈ "0123456789".toList ↔ isDigit c = true := by
  constructor
  · intro h
    have h' : c ∈ ['0','1','2','3','4','5','6','7','8','9'] := h
    simp only [List.mem_cons, List.mem_singleton, List.not_mem_nil, or_false] at h'
    rcases h' with h | h | h | h | h | h | h | h | h | h <;> subst h <;> decide
  · intro h
    simp only [isDigit, Bool.and_eq_true, decide_eq_true_eq] at h
    obtain ⟨h1, h2⟩ := h
    have h' : c ∈ ['0','1','2','3','4','5','6','7','8','9'] := by
      generalize hn : c.toNat = n at h1 h2
      have := char_of_toNat_eq c n hn
      subst this
      interval_cases n <;> decide
    exact h'

theorem mem_digits19 (c : Char) : c ∈ "123456789".toList ↔ (isDigit c = true ∧ c ≠ '0') := by
  constructor
  · intro h
    have h' : c ∈ ['1','2','3','4','5','6','7','8','9'] := h
    simp only [List.mem_cons, List.mem_singleton, List.not_mem_nil, or_false] at h'
    rcases h' with h | h | h | h | h | h | h | h | h <;> subst h <;> decide
  · rintro ⟨h, h0⟩
    have := (mem_digits c).mpr h
    have h' : c ∈ ['0','1','2','3','4','5','6','7','8','9'] := this
    simp only [List.mem_cons, List.mem_singleton, List.not_mem_nil, or_false] at h'
    rcases h' with h | h | h | h | h | h | h | h | h | h
    · exact absurd h h0
    all_goals (subst h; decide)

theorem mem_optDigit (x : GoString) :
    x ∈ ((1 : RegularExpression Char) + digit09).matches' ↔
      (x = [] ∨ ∃ d, isDigit d = true ∧ x = [d]) := by
  rw [RegularExpression.matches'_add, Language.mem_add, RegularExpression.matches'_epsilon,
    Language.mem_one, digit09, mem_oneOf]
  simp only [mem_digits]

theorem mem_twoOptDigits (x : GoString) :
    x ∈ (((1 : RegularExpression Char) + digit09) * (1 + digit09)).matches' ↔
      (x.length ≤ 2 ∧ x.all isDigit = true) := by
  rw [RegularExpression.matches'_mul, Language.mem_mul]
  constructor
  · rintro ⟨a, ha, b, hb, rfl⟩
    rw [mem_optDigit] at ha hb
    rcases ha with rfl | ⟨d, hd, rfl⟩ <;> rcases hb with rfl | ⟨e, he, rfl⟩ <;> simp [*]
  · rintro ⟨hl, hd⟩
    match x, hl, hd with
    | [], _, _ => exact ⟨[], (mem_optDigit _).mpr (Or.inl rfl), [], (mem_optDigit _).mpr (Or.inl rfl), rfl⟩
    | [a], _, hd =>
      refine ⟨[a], (mem_optDigit _).mpr (Or.inr ⟨a, by simpa using hd, rfl⟩), [],
        (mem_optDigit _).mpr (Or.inl rfl), rfl⟩
    | [a, b], _, hd =>
      simp only [List.all_cons, List.all_nil, Bool.and_true, Bool.and_eq_true] at hd
      exact ⟨[a], (mem_optDigit _).mpr (Or.inr ⟨a, hd.1, rfl⟩), [b],
        (mem_optDigit _).mpr (Or.inr ⟨b, hd.2, rfl⟩), rfl⟩
    | _ :: _ :: _ :: _, hl, _ => simp at hl

/-- The group `(0|[1-9][0-9]{0,2})` of the pattern. -/
theorem mem_group (x : GoString) :
    x ∈ (RegularExpression.char '0' + digit19 * ((1 + digit09) * (1 + digit09))).matches' ↔
      (isNumeral x = true ∧ x.length ≤ 3) := by
  rw [RegularExpression.matches'_add, Language.mem_add, RegularExpression.matches'_mul,
    Language.mem_mul]
  constructor
  · rintro (h | ⟨a, ha, b, hb, rfl⟩)
    · have : x = ['0'] := h
      subst this; decide
    · rw [digit19, mem_oneOf] at ha
      obtain ⟨c, hc, rfl⟩ := ha
      rw [mem_digits19] at hc
      rw [mem_twoOptDigits] at hb
      have hc0 : (c == '0') = false := by simpa using hc.2
      have hb2 : ∀ x ∈ b, isDigit x = true := by simpa using hb.2
      simp [isNumeral, hc.1, hc0]
      exact ⟨⟨hb2, hc.2⟩, by omega⟩
  · rintro ⟨hn, hl⟩
    simp only [isNumeral, Bool.and_eq_true, Bool.or_eq_true, Bool.not_eq_true'] at hn
    obtain ⟨⟨hne, hd⟩, h0⟩ := hn
    match x, hne, hd, h0, hl with
    | [], hne, _, _, _ => simp at hne
    | c :: rest, _, hd, h0, hl =>
      simp only [List.all_cons, Bool.and_eq_true] at hd
      by_cases hc : c = '0'
      · subst hc
        left
        rcases h0 with h0 | h0
        · have : rest = [] := by simpa using h0
          subst this; rfl
        · simp at h0
      · right
        refine ⟨[c], ?_, rest, ?_, rfl⟩
        · rw [digit19, mem_oneOf]
          exact ⟨c, (mem_digits19 c).mpr ⟨hd.1, hc⟩, rfl⟩
        · rw [mem_twoOptDigits]
          exact ⟨by simp at hl; omega, hd.2⟩

theorem intercalate_snoc (x : Char) (gs : List GoString) (l : GoString) :
    [x].intercalate (gs ++ [l]) = (gs.map (· ++ [x])).flatten ++ l := by
  induction gs with
  | nil => simp [List.intercalate]
  | cons g gs ih =>
    cases gs with
    | nil => simp [List.intercalate]
    | cons g' gs =>
      simp only [List.intercalate] at ih ⊢
      rw [List.cons_append] at ih
      simp [ih]

theorem isNumeral_nodot (g : GoString) (h : isNumeral g = true) : '.' ∉ g := by
  simp only [isNumeral, Bool.and_eq_true, List.all_eq_true] at h
  intro hm
  have := h.1.2 '.' hm
  revert this
  decide

theorem mem_groups (a : GoString) :
    a ∈ (RegularExpression.star
      ((RegularExpression.char '0' + digit19 * ((1 + digit09) * (1 + digit09)))
        * RegularExpression.char '.')).matches' ↔
    ∃ gs : List GoString, (∀ g ∈ gs, isNumeral g = true ∧ g.length ≤ 3) ∧
      a = (gs.map (· ++ ['.'])).flatten := by
  rw [RegularExpression.matches'_star, Language.mem_kstar]
  constructor
  · rintro ⟨L, rfl, hL⟩
    induction L with
    | nil => exact ⟨[], by simp, by simp⟩
    | cons y L ih =>
      obtain ⟨gs, hgs, e⟩ := ih (fun z hz => hL z (List.mem_cons_of_mem _ hz))
      have hy := hL y (List.mem_cons_self _ _)
      rw [RegularExpression.matches'_mul, Language.mem_mul] at hy
      obtain ⟨g, hg, b, hb, rfl⟩ := hy
      have hb' : b = ['.'] := hb
      subst hb'
      rw [mem_group] at hg
      refine ⟨g :: gs, ?_, ?_⟩
      · intro g' hg'
        rcases List.mem_cons.mp hg' with rfl | h
        · exact hg
        · exact hgs g' h
      · simp [e]
  · rintro ⟨gs, hgs, rfl⟩
    refine ⟨gs.map (· ++ ['.']), rfl, ?_⟩
    intro y hy
    obtain ⟨g, hg, rfl⟩ := List.mem_map.mp hy
    rw [RegularExpression.matches'_mul, Language.mem_mul]
    exact ⟨g, (mem_group g).mpr (hgs g hg), ['.'], rfl, rfl⟩

/-- The strings matched by `goTag`, as a sequence of groups and a last digit. -/
theorem goTag_iff_form (s : GoString) :
    goTag s = true ↔
      ∃ gs : List GoString, ∃ d : Char, (∀ g ∈ gs, isNumeral g = true ∧ g.length ≤ 3) ∧
        isDigit d = true ∧ s = ['.'].intercalate (gs ++ [[d]]) := by
  rw [goTag, RegularExpression.rmatch_iff_matches', goTagRe, RegularExpression.matches'_mul,
    Language.mem_mul]
  constructor
  · rintro ⟨a, ha, b, hb, rfl⟩
    rw [mem_groups] at ha
    obtain ⟨gs, hgs, rfl⟩ := ha
    rw [digit09, mem_oneOf] at hb
    obtain ⟨d, hd, rfl⟩ := hb
    exact ⟨gs, d, hgs, (mem_digits d).mp hd, (intercalate_snoc _ _ _).symm⟩
  · rintro ⟨gs, d, hgs, hd, rfl⟩
    refine ⟨_, (mem_groups _).mpr ⟨gs, hgs, rfl⟩, [d], ?_, (intercalate_snoc _ _ _).symm⟩
    rw [digit09, mem_oneOf]
    exact ⟨d, (mem_digits d).mpr hd, rfl⟩

theorem splitOn_form (gs : List GoString) (d : Char)
    (hgs : ∀ g ∈ gs, isNumeral g = true ∧ g.length ≤ 3) (hd : isDigit d = true) :
    (['.'].intercalate (gs ++ [[d]])).splitOn '.' = gs ++ [[d]] := by
  apply List.splitOn_intercalate
  · intro l hl
    rcases List.mem_append.mp hl with h | h
    · exact isNumeral_nodot l (hgs l h).1
    · have : l = [d] := by simpa using h
      subst this
      intro hm
      have : '.' = d := List.mem_singleton.mp hm
      subst this
      revert hd; decide
  · simp

theorem isNumeral_singleton (d : Char) (hd : isDigit d = true) : isNumeral [d] = true := by
  simp [isNumeral, hd]
  exact em _

theorem goTag_matches_small_form (s : GoString) : goTag s = true ↔ smallDottedNumeric s = true := by
  rw [goTag_iff_form]
  constructor
  · rintro ⟨gs, d, hgs, hd, rfl⟩
    simp only [smallDottedNumeric, splitOn_form gs d hgs hd, List.dropLast_concat,
      List.getLast?_concat, Option.any_some, Bool.and_eq_true, List.all_eq_true,
      decide_eq_true_eq]
    exact ⟨fun g hg => hgs g hg, isNumeral_singleton d hd, rfl⟩
  · intro h
    simp only [smallDottedNumeric, Bool.and_eq_true, List.all_eq_true, decide_eq_true_eq] at h
    obtain ⟨h1, h2⟩ := h
    have hne : s.splitOn '.' ≠ [] := List.splitOnP_ne_nil _ _
    have hparts := List.dropLast_append_getLast hne
    rw [List.getLast?_eq_getLast _ hne] at h2
    simp only [Option.any_some, Bool.and_eq_true, decide_eq_true_eq] at h2
    obtain ⟨d, hd⟩ := List.length_eq_one.mp h2.2
    refine ⟨(s.splitOn '.').dropLast, d, h1, ?_, ?_⟩
    · have := h2.1
      rw [hd] at this
      simp only [isNumeral, Bool.and_eq_true, List.all_cons] at this
      exact this.1.2.1
    · rw [← hd, hparts, List.intercalate_splitOn]

theorem isDigit_bounds (c : Char) (h : isDigit c = true) : 48 ≤ c.toNat ∧ c.toNat ≤ 57 := by
  simpa [isDigit] using h

theorem parseDigits_foldl (c : GoString) (hd : ∀ d ∈ c, isDigit d = true) (acc : Nat) :
    c.foldl
      (fun acc c =>
        match acc with
        | none => none
        | some n => if 48 ≤ c.toNat ∧ c.toNat ≤ 57 then some (n * 10 + (c.toNat - 48)) else none)
      (some acc)
    = some (c.foldl (fun n d => 10 * n + (d.toNat - 48)) acc) := by
  induction c generalizing acc with
  | nil => rfl
  | cons a c ih =>
    have ha := isDigit_bounds a (hd a (List.mem_cons_self _ _))
    simp only [List.foldl_cons, ha, and_self, if_true]
    rw [ih (fun d h => hd d (List.mem_cons_of_mem _ h)), Nat.mul_comm]

theorem foldl_digits_lt (c : GoString) (hd : ∀ d ∈ c, isDigit d = true) (acc : Nat) :
    c.foldl (fun n d => 10 * n + (d.toNat - 48)) acc < (acc + 1) * 10 ^ c.length := by
  induction c generalizing acc with
  | nil => simp
  | cons a c ih =>
    have ha := isDigit_bounds a (hd a (List.mem_cons_self _ _))
    simp only [List.foldl_cons, List.length_cons]
    refine lt_of_lt_of_le (ih (fun d h => hd d (List.mem_cons_of_mem _ h)) _) ?_
    have : 10 * acc + (a.toNat - 48) + 1 ≤ (acc + 1) * 10 := by omega
    calc (10 * acc + (a.toNat - 48) + 1) * 10 ^ c.length
        ≤ ((acc + 1) * 10) * 10 ^ c.length := Nat.mul_le_mul_right _ this
      _ = (acc + 1) * 10 ^ (c.length + 1) := by ring

/-- The call of `Atoi` succeeds on the components of a string that matches `goTag`. -/
theorem Atoi_numeral (c : GoString) (hn : isNumeral c = true) (hl : c.length ≤ 3) :
    Atoi c = ((decimalValue c : Int), false) := by
  simp only [isNumeral, Bool.and_eq_true, List.all_eq_true] at hn
  obtain ⟨⟨hne, hd⟩, -⟩ := hn
  match c, hne, hd, hl with
  | [], hne, _, _ => simp at hne
  | a :: c, _, hd, hl =>
    have ha := hd a (List.mem_cons_self _ _)
    have hm : a ≠ '-' := by rintro rfl; revert ha; decide
    have hp : a ≠ '+' := by rintro rfl; revert ha; decide
    have hlt := foldl_digits_lt (a :: c) hd 0
    have hpow : 10 ^ (a :: c).length ≤ 10 ^ 3 := Nat.pow_le_pow_right (by norm_num) hl
    have hv : decimalValue (a :: c) < 2 ^ 63 := by
      unfold decimalValue
      have : (0 + 1) * 10 ^ (a :: c).length ≤ 1000 := by simpa using hpow
      have : List.foldl (fun n d => 10 * n + (d.toNat - 48)) 0 (a :: c) < 1000 :=
        lt_of_lt_of_le hlt this
      exact lt_trans this (by norm_num)
    have hpd : parseDigits (a :: c) = some (decimalValue (a :: c)) := by
      unfold parseDigits decimalValue
      exact parseDigits_foldl (a :: c) hd 0
    simp only [Atoi, List.head?_cons, Option.some.injEq, hm, hp, or_self, if_false, hpd,
      decide_False, hv, if_true]
    rfl

theorem compareSeq_eq_firstDiff (a b : List Nat) :
    compareSeq a b =
      match firstDiff a b with
      | some r => r
      | none => if a.length < b.length then -1 else if a.length > b.length then 1 else 0 := by
  induction a generalizing b with
  | nil => cases b <;> simp [compareSeq, firstDiff]
  | cons x a ih =>
    cases b with
    | nil => simp [compareSeq, firstDiff]
    | cons y b =>
      simp only [compareSeq, firstDiff]
      by_cases h1 : x < y
      · simp [h1]
      · by_cases h2 : y < x
        · simp [h1, h2]
        · simp only [h1, h2, if_false, ih b, List.length_cons, Nat.add_lt_add_iff_right, gt_iff_lt]

theorem cmpLoop_range' (xx yy : List GoString)
    (hx : ∀ c ∈ xx, Atoi c = ((decimalValue c : Int), false))
    (hy : ∀ c ∈ yy, Atoi c = ((decimalValue c : Int), false)) (n k : Nat)
    (hn : n = min (xx.length - k) (yy.length - k)) :
    cmpLoop xx yy (List.range' k n) =
      some (firstDiff ((xx.drop k).map decimalValue) ((yy.drop k).map decimalValue)) := by
  induction n generalizing k with
  | zero =>
    have : xx.drop k = [] ∨ yy.drop k = [] := by
      rcases Nat.eq_zero_of_le_zero (le_of_eq hn.symm) |> fun h => (by omega : xx.length - k = 0 ∨ yy.length - k = 0) with h | h
      · left; exact List.drop_eq_nil_of_le (by omega)
      · right; exact List.drop_eq_nil_of_le (by omega)
    rcases this with h | h
    · simp [h, cmpLoop, firstDiff]
    · rw [h]
      cases hxd : (xx.drop k).map decimalValue <;> simp [cmpLoop, firstDiff]
  | succ n ih =>
    have hkx : k < xx.length := by omega
    have hky : k < yy.length := by omega
    rw [List.range'_succ, cmpLoop]
    rw [List.getElem?_eq_getElem hkx, List.getElem?_eq_getElem hky]
    rw [List.drop_eq_getElem_cons hkx, List.drop_eq_getElem_cons hky]
    simp only [List.map_cons, firstDiff]
    rw [hx _ (List.getElem_mem hkx), hy _ (List.getElem_mem hky)]
    simp only [Nat.cast_lt, gt_iff_lt]
    rw [ih (k + 1) (by omega)]
    split_ifs <;> rfl

theorem goTag_components (x : GoString) (h : goTag x = true) :
    ∀ c ∈ x.splitOn '.', isNumeral c = true ∧ c.length ≤ 3 := by
  obtain ⟨gs, d, hgs, hd, rfl⟩ := (goTag_iff_form x).mp h
  rw [splitOn_form gs d hgs hd]
  intro c hc
  rcases List.mem_append.mp hc with h | h
  · exact hgs c h
  · have : c = [d] := by simpa using h
    subst this
    exact ⟨isNumeral_singleton d hd, by simp⟩

theorem goTag_Atoi (x : GoString) (h : goTag x = true) :
    ∀ c ∈ Split x ".".toList, Atoi c = ((decimalValue c : Int), false) := by
  rw [Split_dot]
  intro c hc
  exact Atoi_numeral c (goTag_components x h c hc).1 (goTag_components x h c hc).2

/-- On two strings that match `goTag`, `cmpGoVersion` compares the integer
sequences. -/
theorem cmpGoVersion_wf (x y : GoString) (hx : goTag x = true) (hy : goTag y = true) :
    cmpGoVersion x y = some (compareSeq (versionSeq x) (versionSeq y)) := by
  have hloop := cmpLoop_range' (Split x ".".toList) (Split y ".".toList)
    (goTag_Atoi x hx) (goTag_Atoi y hy)
    (min (Split x ".".toList).length (Split y ".".toList).length) 0 (by simp)
  rw [← List.range_eq_range'] at hloop
  simp only [cmpGoVersion, hx, hy, Bool.not_true, Bool.false_eq_true, if_false, hloop,
    List.drop_zero]
  rw [compareSeq_eq_firstDiff, versionSeq, versionSeq, ← Split_dot, ← Split_dot]
  cases firstDiff (List.map decimalValue (Split x ".".toList))
      (List.map decimalValue (Split y ".".toList)) with
  | none => simp only [List.length_map, gt_iff_lt]; split_ifs <;> rfl
  | some r => simp

theorem cmpGoVersion_malformed (x y : GoString) (hx : goTag x = false) :
    cmpGoVersion x y = some (-1) := by
  simp [cmpGoVersion, hx]

theorem cmpGoVersion_wf_malformed (x y : GoString) (hx : goTag x = true) (hy : goTag y = false) :
    cmpGoVersion x y = some 1 := by
  simp [cmpGoVersion, hx, hy]

theorem compareSeq_eq_zero (a b : List Nat) : compareSeq a b = 0 ↔ a = b := by
  induction a generalizing b with
  | nil => cases b <;> simp [compareSeq]
  | cons x a ih =>
    cases b with
    | nil => simp [compareSeq]
    | cons y b =>
      simp only [compareSeq, List.cons.injEq]
      by_cases h1 : x < y
      · simp [h1]; omega
      · by_cases h2 : y < x
        · simp [h1, h2]; omega
        · have : x = y := by omega
          simp [h1, h2, ih, this]

theorem compareSeq_antisymm (a b : List Nat) : 0 ≤ compareSeq a b → compareSeq b a ≤ 0 := by
  induction a generalizing b with
  | nil => cases b <;> simp [compareSeq]
  | cons x a ih =>
    cases b with
    | nil => simp [compareSeq]
    | cons y b =>
      simp only [compareSeq]
      by_cases h1 : x < y
      · simp [h1]
      · by_cases h2 : y < x
        · simp [h1, h2]
        · simpa [h1, h2] using ih b

theorem compareSeq_trans (a b c : List Nat) :
    compareSeq a b ≤ 0 → compareSeq b c ≤ 0 → compareSeq a c ≤ 0 := by
  induction a generalizing b c with
  | nil => cases c <;> simp [compareSeq]
  | cons x a ih =>
    cases b with
    | nil => simp [compareSeq]
    | cons y b =>
      cases c with
      | nil => simp [compareSeq]
      | cons z c =>
        simp only [compareSeq]
        by_cases h1 : x < y
        · by_cases h3 : y < z
          · have : x < z := by omega
            simp [this]
          · by_cases h4 : z < y
            · simp [h3, h4]
            · have : x < z := by omega
              simp [this]
        · by_cases h2 : y < x
          · simp [h1, h2]
          · have hxy : x = y := by omega
            subst hxy
            by_cases h3 : x < z
            · simp [h3]
            · by_cases h4 : z < x
              · simp [h3, h4]
              · simpa [h1, h3, h4] using ih b c

theorem cmpLe_wf (x y : GoString) (hx : goTag x = true) (hy : goTag y = true) :
    cmpLe x y = true ↔ compareSeq (versionSeq x) (versionSeq y) ≤ 0 := by
  simp [cmpLe, cmpGoVersion_wf x y hx hy]

theorem goTag_nil : goTag [] = false := by decide

theorem dottedLoop_spec (v : GoString) (hv : goTag v = true) (ts : List GoString) :
    ∀ m : GoString, (m = [] ∨ (goTag m = true ∧ cmpLe m v = true)) →
      ∃ r, dottedLoop v ts m = some r ∧ (r = m ∨ r ∈ ts) ∧
        (r = [] ∨ (goTag r = true ∧ cmpLe r v = true)) ∧
        (r = [] → m = [] ∧ ∀ t ∈ ts, goTag t = true → cmpLe t v = false) ∧
        (goTag m = true → cmpLe m r = true) ∧
        (∀ t ∈ ts, goTag t = true → cmpLe t v = true → cmpLe t r = true) := by
  induction ts with
  | nil =>
    intro m hm
    refine ⟨m, rfl, Or.inl rfl, hm, fun h => ⟨h, by simp⟩, ?_, by simp⟩
    intro hg
    rw [cmpLe_wf m m hg hg, (compareSeq_eq_zero _ _).mpr rfl]
  | cons t ts ih =>
    intro m hm
    by_cases ht : goTag t = true
    · -- a well-formed tag
      have hc2 : cmpGoVersion t v = some (compareSeq (versionSeq t) (versionSeq v)) :=
        cmpGoVersion_wf t v ht hv
      by_cases hlt : ∃ c1, cmpGoVersion m t = some c1 ∧ c1 < 0
      · obtain ⟨c1, hc1, hneg⟩ := hlt
        by_cases hle : compareSeq (versionSeq t) (versionSeq v) ≤ 0
        · -- `match` becomes `t`
          have htv : cmpLe t v = true := (cmpLe_wf t v ht hv).mpr hle
          obtain ⟨r, hr, hmem, hwf, hnil, hmr, hall⟩ := ih t (Or.inr ⟨ht, htv⟩)
          have htr := hmr ht
          have hrne : r ≠ [] := by
            intro h
            have := (hnil h).1
            rw [this] at ht
            rw [goTag_nil] at ht
            exact absurd ht (by simp)
          have hrwf : goTag r = true := by
            rcases hwf with h | h
            · exact absurd h hrne
            · exact h.1
          refine ⟨r, ?_, ?_, hwf, fun h => absurd h hrne, ?_, ?_⟩
          · simp [dottedLoop, ht, hc1, hneg, hc2, hle, hr]
          · rcases hmem with h | h
            · right; rw [h]; exact List.mem_cons_self _ _
            · right; exact List.mem_cons_of_mem _ h
          · intro hg
            rw [cmpGoVersion_wf m t hg ht] at hc1
            have h1 : compareSeq (versionSeq m) (versionSeq t) ≤ 0 := by
              have : compareSeq (versionSeq m) (versionSeq t) = c1 := by simpa using hc1
              omega
            rw [cmpLe_wf m r hg hrwf]
            exact compareSeq_trans _ _ _ h1 ((cmpLe_wf t r ht hrwf).mp htr)
          · intro t' ht' hg' hle'
            rcases List.mem_cons.mp ht' with rfl | h
            · exact htr
            · exact hall t' h hg' hle'
        · -- `t` is after `v`
          have htv : cmpLe t v = false := by
            rw [Bool.eq_false_iff]
            intro h
            exact hle ((cmpLe_wf t v ht hv).mp h)
          obtain ⟨r, hr, hmem, hwf, hnil, hmr, hall⟩ := ih m hm
          refine ⟨r, ?_, ?_, hwf, ?_, hmr, ?_⟩
          · simp [dottedLoop, ht, hc1, hneg, hc2, hle, hr]
          · rcases hmem with h | h
            · left; exact h
            · right; exact List.mem_cons_of_mem _ h
          · intro h
            refine ⟨(hnil h).1, ?_⟩
            intro t' ht' hg'
            rcases List.mem_cons.mp ht' with rfl | h'
            · exact htv
            · exact (hnil h).2 t' h' hg'
          · intro t' ht' hg' hle'
            rcases List.mem_cons.mp ht' with rfl | h
            · rw [htv] at hle'; exact absurd hle' (by simp)
            · exact hall t' h hg' hle'
      · -- `match` is not before `t`
        have hmwf : goTag m = true := by
          by_contra h
          have h' : goTag m = false := by simpa using h
          exact hlt ⟨-1, cmpGoVersion_malformed m t h', by norm_num⟩
        have hc1 : cmpGoVersion m t = some (compareSeq (versionSeq m) (versionSeq t)) :=
          cmpGoVersion_wf m t hmwf ht
        have hge : 0 ≤ compareSeq (versionSeq m) (versionSeq t) := by
          by_contra h
          exact hlt ⟨_, hc1, by omega⟩
        obtain ⟨r, hr, hmem, hwf, hnil, hmr, hall⟩ := ih m hm
        have hrne : r ≠ [] := by
          intro h
          have := (hnil h).1
          rw [this, goTag_nil] at hmwf
          exact absurd hmwf (by simp)
        have hrwf : goTag r = true := by
          rcases hwf with h | h
          · exact absurd h hrne
          · exact h.1
        refine ⟨r, ?_, ?_, hwf, fun h => absurd h hrne, hmr, ?_⟩
        · have : ¬ compareSeq (versionSeq m) (versionSeq t) < 0 := by omega
          simp [dottedLoop, ht, hc1, this, hr]
        · rcases hmem with h | h
          · left; exact h
          · right; exact List.mem_cons_of_mem _ h
        · intro t' ht' hg' hle'
          rcases List.mem_cons.mp ht' with rfl | h
          · rw [cmpLe_wf t' r hg' hrwf]
            exact compareSeq_trans _ _ _ (compareSeq_antisymm _ _ hge)
              ((cmpLe_wf m r hmwf hrwf).mp (hmr hmwf))
          · exact hall t' h hg' hle'
    · -- not a well-formed tag: skipped
      have ht' : goTag t = false := by simpa using ht
      obtain ⟨r, hr, hmem, hwf, hnil, hmr, hall⟩ := ih m hm
      refine ⟨r, ?_, ?_, hwf, ?_, hmr, ?_⟩
      · simp [dottedLoop, ht', hr]
      · rcases hmem with h | h
        · left; exact h
        · right; exact List.mem_cons_of_mem _ h
      · intro h
        refine ⟨(hnil h).1, ?_⟩
        intro t' ht'' hg'
        rcases List.mem_cons.mp ht'' with rfl | h'
        · rw [ht'] at hg'; exact absurd hg' (by simp)
        · exact (hnil h).2 t' h' hg'
      · intro t' ht'' hg' hle'
        rcases List.mem_cons.mp ht'' with rfl | h
        · rw [ht'] at hg'; exact absurd hg' (by simp)
        · exact hall t' h hg' hle'

theorem HasPrefix_mem (s sub : GoString) (h : HasPrefix s sub = true) : ∀ c ∈ sub, c ∈ s := by
  induction s generalizing sub with
  | nil =>
    cases sub with
    | nil => simp
    | cons d sub => simp [HasPrefix] at h
  | cons a s ih =>
    cases sub with
    | nil => simp
    | cons d sub =>
      simp only [HasPrefix, Bool.and_eq_true, beq_iff_eq] at h
      intro c hc
      rcases List.mem_cons.mp hc with rfl | hc
      · rw [← h.1]; exact List.mem_cons_self _ _
      · exact List.mem_cons_of_mem _ (ih sub h.2 c hc)

theorem HasPrefix_length (s sub : GoString) (h : HasPrefix s sub = true) :
    sub.length ≤ s.length := by
  induction s generalizing sub with
  | nil =>
    cases sub with
    | nil => simp
    | cons d sub => simp [HasPrefix] at h
  | cons a s ih =>
    cases sub with
    | nil => simp
    | cons d sub =>
      simp only [HasPrefix, Bool.and_eq_true, beq_iff_eq] at h
      simpa using ih sub h.2

theorem Index_some (s sub : GoString) (i : Nat) (h : Index s sub = some i) :
    i + sub.length ≤ s.length ∧ ∀ c ∈ sub, c ∈ s := by
  induction s generalizing i with
  | nil =>
    simp only [Index] at h
    split at h
    · rename_i hsub; subst hsub
      simp at h; subst h; simp
    · exact absurd h (by simp)
  | cons a s ih =>
    simp only [Index] at h
    split at h
    · rename_i hp
      simp at h; subst h
      exact ⟨by simpa using HasPrefix_length _ _ hp, HasPrefix_mem _ _ hp⟩
    · cases hi : Index s sub with
      | none => rw [hi] at h; exact absurd h (by simp)
      | some j =>
        rw [hi] at h
        simp at h; subst h
        obtain ⟨h1, h2⟩ := ih j hi
        exact ⟨by simp; omega, fun c hc => List.mem_cons_of_mem _ (h2 c hc)⟩

theorem Contains_length (t p : GoString) (h : Contains t p = true) : p.length ≤ t.length := by
  rw [Contains, Option.isSome_iff_exists] at h
  obtain ⟨i, hi⟩ := h
  have := (Index_some t p i hi).1
  omega

theorem goTag_chars (v : GoString) (h : goTag v = true) :
    ∀ c ∈ v, c = '.' ∨ isDigit c = true := by
  obtain ⟨gs, d, hgs, hd, rfl⟩ := (goTag_iff_form v).mp h
  rw [intercalate_snoc]
  intro c hc
  rcases List.mem_append.mp hc with hc | hc
  · obtain ⟨l, hl, hcl⟩ := List.mem_flatten.mp hc
    obtain ⟨g, hg, rfl⟩ := List.mem_map.mp hl
    rcases List.mem_append.mp hcl with h1 | h1
    · right
      have := (hgs g hg).1
      simp only [isNumeral, Bool.and_eq_true, List.all_eq_true] at this
      exact this.1.2 c h1
    · left; simpa using h1
  · right
    have : c = d := by simpa using hc
    rw [this]; exact hd

theorem goTag_not_weekly (v : GoString) (h : goTag v = true) : Contains v wMark = false := by
  rw [Bool.eq_false_iff]
  intro hc
  rw [Contains, Option.isSome_iff_exists] at hc
  obtain ⟨i, hi⟩ := hc
  have hw : 'w' ∈ v := (Index_some v wMark i hi).2 'w' (by decide)
  rcases goTag_chars v h 'w' hw with h1 | h1
  · revert h1; decide
  · revert h1; decide

theorem selectWeekly_dotted (v : GoString) (tags : List GoString) (h : goTag v = true) :
    selectWeekly v tags = some [] := by
  simp [selectWeekly, goTag_not_weekly v h]

theorem cmpLe_malformed_right (t : GoString) (ht : goTag t = true) : cmpLe t [] = false := by
  simp [cmpLe, cmpGoVersion_wf_malformed t [] ht goTag_nil]

/-- C1: for a version `v` that matches `goTag` and any tag list, `selectTag`
returns a result `r`.  The result is the empty string exactly when no tag of
the list that matches `goTag` is `<= v` under `cmpGoVersion`; otherwise `r` is
a member of the list, matches `goTag`, satisfies `cmpGoVersion(r, v) <= 0`, and
`cmpGoVersion(t, r) <= 0` holds for every tag `t` of the list that matches
`goTag` and has `cmpGoVersion(t, v) <= 0`. -/
theorem selectTag_dotted_greatest (v : GoString) (tags : List GoString) (hv : goTag v = true) :
    ∃ r, selectTag v tags = some r ∧
      (r = [] ↔ ∀ t ∈ tags, goTag t = true → cmpLe t v = false) ∧
      (r ≠ [] → r ∈ tags ∧ goTag r = true ∧ cmpLe r v = true ∧
        ∀ t ∈ tags, goTag t = true → cmpLe t v = true → cmpLe t r = true) := by
  obtain ⟨r, hr, hmem, hwf, hnil, -, hall⟩ := dottedLoop_spec v hv tags [] (Or.inl rfl)
  refine ⟨r, ?_, ⟨fun h => (hnil h).2, ?_⟩, ?_⟩
  · simp [selectTag, selectWeekly_dotted v tags hv, hv, hr]
  · intro hno
    by_contra hne
    rcases hwf with h | h
    · exact hne h
    · rcases hmem with h' | h'
      · exact hne h'
      · have := hno r h' h.1
        rw [h.2] at this
        exact absurd this (by simp)
  · intro hne
    rcases hwf with h | h
    · exact absurd h hne
    · rcases hmem with h' | h'
      · exact absurd h' hne
      · exact ⟨h', h.1, h.2, hall⟩

theorem cmpGoVersion_isSome (x y : GoString) : (cmpGoVersion x y).isSome = true := by
  cases hx : goTag x
  · rw [cmpGoVersion_malformed x y hx]; rfl
  · cases hy : goTag y
    · rw [cmpGoVersion_wf_malformed x y hx hy]; rfl
    · rw [cmpGoVersion_wf x y hx hy]; rfl

theorem dottedLoop_isSome (v : GoString) (ts : List GoString) :
    ∀ m, (dottedLoop v ts m).isSome = true := by
  induction ts with
  | nil => intro m; rfl
  | cons t ts ih =>
    intro m
    obtain ⟨c1, hc1⟩ := Option.isSome_iff_exists.mp (cmpGoVersion_isSome m t)
    obtain ⟨c2, hc2⟩ := Option.isSome_iff_exists.mp (cmpGoVersion_isSome t v)
    simp only [dottedLoop, hc1, hc2]
    split_ifs <;> exact ih _

theorem weeklyLoop_isSome (p v : GoString) (ts : List GoString) :
    ∀ m, (weeklyLoop p v ts m).isSome = true := by
  induction ts with
  | nil => intro m; rfl
  | cons t ts ih =>
    intro m
    simp only [weeklyLoop]
    by_cases hc : Contains t p = true
    · have := Contains_length t p hc
      simp only [hc, Bool.not_true, Bool.false_eq_true, if_false, this, if_true]
      split_ifs <;> exact ih _
    · have hc' : Contains t p = false := by simpa using hc
      simp only [hc', Bool.not_false, if_true]
      exact ih _

theorem genSplit_ne_nil (sep : GoString) (k n : Nat) (s : GoString) :
    ∃ a l, genSplit sep k n s = a :: l := by
  cases n with
  | zero => exact ⟨s, [], rfl⟩
  | succ n =>
    simp only [genSplit]
    cases Index s sep with
    | none => exact ⟨s, [], rfl⟩
    | some m => exact ⟨_, _, rfl⟩

/-- When the version contains the marker, `SplitAfter` gives at least two pieces. -/
theorem SplitAfter_two (v : GoString) (h : Contains v wMark = true) :
    ∃ p w rest, SplitAfter v wMark = p :: w :: rest := by
  have hlen := Contains_length v wMark h
  rw [Contains, Option.isSome_iff_exists] at h
  obtain ⟨i, hi⟩ := h
  have : ∃ n, v.length = n + 1 := by
    have : wMark.length = 8 := rfl
    exact ⟨v.length - 1, by omega⟩
  obtain ⟨n, hn⟩ := this
  obtain ⟨a, l, hal⟩ := genSplit_ne_nil wMark wMark.length n (v.drop (i + wMark.length))
  refine ⟨v.take (i + wMark.length), a, l, ?_⟩
  rw [SplitAfter, hn, genSplit, hi]
  simp only [hal]

theorem selectWeekly_isSome (v : GoString) (tags : List GoString) :
    (selectWeekly v tags).isSome = true := by
  simp only [selectWeekly]
  by_cases hc : Contains v wMark = true
  · obtain ⟨p, w, rest, hsa⟩ := SplitAfter_two v hc
    obtain ⟨b, l, hb⟩ := genSplit_ne_nil wMark 0 v.length v
    simp only [hc, if_true, Split, hb, hsa, List.getElem?_cons_zero, List.getElem?_cons_succ]
    split_ifs
    · exact weeklyLoop_isSome p w tags []
    · rfl
  · simp [hc]

theorem selectTag_isSome (v : GoString) (tags : List GoString) :
    (selectTag v tags).isSome = true := by
  obtain ⟨m, hm⟩ := Option.isSome_iff_exists.mp (selectWeekly_isSome v tags)
  simp only [selectTag, hm]
  split_ifs
  · exact dottedLoop_isSome v tags m
  · rfl

theorem vers_eq : vers = "9.0".toList := by decide

theorem frame_refl {W : Type} (root : Option GoString) (s : State W) : Frame root s s :=
  ⟨rfl, rfl, rfl, [], by simp, by simp⟩

theorem frame_trans {W : Type} {root : Option GoString} {s s' s'' : State W}
    (h1 : Frame root s s') (h2 : Frame root s' s'') : Frame root s s'' := by
  obtain ⟨a1, b1, c1, evs1, t1, g1⟩ := h1
  obtain ⟨a2, b2, c2, evs2, t2, g2⟩ := h2
  refine ⟨a2.trans a1, b2.trans b1, c2.trans c1, evs1 ++ evs2, ?_, ?_⟩
  · rw [t2, t1, List.append_assoc]
  · intro ev hev
    rcases List.mem_append.mp hev with h | h
    · exact g1 ev h
    · exact g2 ev h

theorem frame_step {W : Type} (root : GoString) (s : State W) (w : W) (evs : List Event)
    (h : ∀ ev ∈ evs, ev.isWalk = false ∧ (∀ r, ev ≠ Event.rootCached r) ∧
        ∀ r, ev.isDriverOpOn r = true → some r = some root) :
    Frame (some root) s { s with world := w, trace := s.trace ++ evs } :=
  ⟨rfl, rfl, rfl, evs, rfl, h⟩

theorem syncFrame_refl {W : Type} (root : GoString) (s : State W) : SyncFrame root s s :=
  ⟨rfl, frame_refl _ s⟩

theorem syncFrame_trans {W : Type} {root : GoString} {s s' s'' : State W}
    (h1 : SyncFrame root s s') (h2 : SyncFrame root s' s'') : SyncFrame root s s'' :=
  ⟨h2.1.trans h1.1, frame_trans h1.2 h2.2⟩

theorem syncFrame_step {W : Type} (root : GoString) (s : State W) (w : W) (evs : List Event)
    (h : ∀ ev ∈ evs, ev.isWalk = false ∧ (∀ r, ev ≠ Event.rootCached r) ∧
        ∀ r, ev.isDriverOpOn r = true → some r = some root) :
    SyncFrame root s { s with world := w, trace := s.trace ++ evs } :=
  ⟨rfl, frame_step root s w evs h⟩

theorem syncFrame_world {W : Type} (root : GoString) (s : State W) (w : W) :
    SyncFrame root s { s with world := w } := by
  have := syncFrame_step root s w [] (by simp)
  simpa using this

theorem createOrUpdate_frame {W : Type} (ext : Externals W) (vcs repo root dir : GoString) (s : State W) :
    SyncFrame root s (createOrUpdate ext vcs repo root dir s).2 := by
  unfold createOrUpdate
  split
  · split
    · exact syncFrame_refl _ _
    · split
      · exact syncFrame_world _ _ _
      · exact syncFrame_step _ _ _ _ (by simp [Event.isWalk, Event.isDriverOpOn])
  · exact syncFrame_step _ _ _ _ (by simp [Event.isWalk, Event.isDriverOpOn])

theorem syncTag_spec {W : Type} (ext : Externals W) (vcs root : GoString) (s : State W) :
    ∃ e s', syncTag ext vcs root s = some (e, s') ∧ SyncFrame root s s' := by
  unfold syncTag
  split
  · exact ⟨_, _, rfl, by
      have := syncFrame_step root s s.world _ (?_ : ∀ ev ∈ [Event.print ("# cd ".toList ++ root ++ "; ".toList ++ vcs ++ " sync/update\n".toList)], _)
      · exact this
      · simp [Event.isWalk, Event.isDriverOpOn]⟩
  · split
    · exact ⟨_, _, rfl, syncFrame_step _ _ _ _ (by simp [Event.isWalk, Event.isDriverOpOn])⟩
    · rename_i tags w _
      obtain ⟨tag, htag⟩ := Option.isSome_iff_exists.mp (selectTag_isSome vers tags)
      simp only [htag]
      exact ⟨_, _, rfl, syncFrame_step _ _ _ _ (by simp [Event.isWalk, Event.isDriverOpOn])⟩

theorem syncRoot_spec {W : Type} (ext : Externals W) (vcs repo rootPath root : GoString) (s : State W) :
    ∃ e s', syncRoot ext vcs repo rootPath root s = some (e, s') ∧ SyncFrame root s s' := by
  have h1 : SyncFrame root s (if ext.buildV = true then
      { s with trace := s.trace ++ [Event.print (rootPath ++ " (download)\n".toList)] }
    else s) := by
    split
    · have := syncFrame_step root s s.world [Event.print (rootPath ++ " (download)\n".toList)]
        (by simp [Event.isWalk, Event.isDriverOpOn])
      exact this
    · exact syncFrame_refl _ _
  unfold syncRoot
  simp only []
  generalize (if ext.buildV = true then
      { s with trace := s.trace ++ [Event.print (rootPath ++ " (download)\n".toList)] }
    else s) = s1 at h1 ⊢
  split
  · exact ⟨_, _, rfl, h1⟩
  · have h2 := createOrUpdate_frame ext vcs repo root (ext.Join root ('.' :: vcs)) s1
    split
    · rename_i e s2 heq
      rw [heq] at h2
      exact ⟨_, _, rfl, syncFrame_trans h1 h2⟩
    · rename_i s2 heq
      rw [heq] at h2
      obtain ⟨e, s3, h3, h4⟩ := syncTag_spec ext vcs root s2
      exact ⟨e, s3, h3, syncFrame_trans (syncFrame_trans h1 h2) h4⟩

theorem downloadPackage_error {W : Type} (ext : Externals W) (p : Package) (s : State W) (e : GoString)
    (w : W) (h : resolveRoot ext p s.world = (.error e, w)) :
    downloadPackage ext p s = some (some e, p, { s with world := w }) := by
  simp [downloadPackage, h]

theorem downloadPackage_cached {W : Type} (ext : Externals W) (p : Package) (s : State W) (r : Resolved)
    (w : W) (h : resolveRoot ext p s.world = (.ok r, w)) (hc : s.downloadRootCache r.root = true) :
    downloadPackage ext p s = some (none, r.p, { s with world := w }) := by
  simp [downloadPackage, h, hc]

theorem downloadPackage_fresh {W : Type} (ext : Externals W) (p : Package) (s : State W) (r : Resolved)
    (w : W) (h : resolveRoot ext p s.world = (.ok r, w))
    (hc : s.downloadRootCache r.root = false) :
    ∃ e s', downloadPackage ext p s = some (e, r.p, s') ∧
      s'.downloadRootCache = mapSet s.downloadRootCache r.root ∧
      s'.stk = s.stk ∧ s'.downloadCache = s.downloadCache ∧ s'.errors = s.errors ∧
      ∃ evs, s'.trace = s.trace ++ Event.rootCached r.root :: evs ∧
        ∀ ev ∈ evs, ev.isWalk = false ∧ (∀ r', ev ≠ Event.rootCached r') ∧
          ∀ r', ev.isDriverOpOn r' = true → r' = r.root := by
  obtain ⟨e, s', hs, hrc, hstk, hdc, herr, evs, htr, hev⟩ :=
    syncRoot_spec ext r.vcs r.repo r.rootPath r.root
      { s with world := w, downloadRootCache := mapSet s.downloadRootCache r.root,
               trace := s.trace ++ [Event.rootCached r.root] }
  refine ⟨e, s', ?_, hrc, hstk, hdc, herr, evs, ?_, ?_⟩
  · simp [downloadPackage, h, hc, hs]
  · rw [htr]; simp
  · intro ev hm
    obtain ⟨a, b, c⟩ := hev ev hm
    exact ⟨a, b, fun r' hr' => by simpa using c r' hr'⟩

/-- The function `downloadPackage` always returns, and touches neither the import stack,
nor `downloadCache`, nor the reported errors. -/
theorem downloadPackage_frame {W : Type} (ext : Externals W) (p : Package) (s : State W) :
    ∃ e p' s', downloadPackage ext p s = some (e, p', s') ∧
      s'.stk = s.stk ∧ s'.downloadCache = s.downloadCache ∧ s'.errors = s.errors ∧
      ∃ evs, s'.trace = s.trace ++ evs ∧ ∀ ev ∈ evs, ev.isWalk = false := by
  rcases hres : resolveRoot ext p s.world with ⟨e | r, w⟩
  · exact ⟨_, _, _, downloadPackage_error ext p s e w hres, rfl, rfl, rfl, [], by simp, by simp⟩
  · cases hc : s.downloadRootCache r.root
    · obtain ⟨e, s', hs, -, hstk, hdc, herr, evs, htr, hev⟩ :=
        downloadPackage_fresh ext p s r w hres hc
      refine ⟨e, r.p, s', hs, hstk, hdc, herr, _, htr, ?_⟩
      intro ev hm
      rcases List.mem_cons.mp hm with rfl | hm
      · rfl
      · exact (hev ev hm).1
    · exact ⟨_, _, _, downloadPackage_cached ext p s r w hres hc, rfl, rfl, rfl, [],
        by simp, by simp⟩

theorem downloadPackageSeq_bound {W : Type} (ext : Externals W) (calls : List (Package × W)) :
    ∀ s : State W, ∃ segs, downloadPackageSeq ext calls s = some segs ∧
      segs.length = calls.length ∧
      ∀ root, callsOn root segs ≤ (if s.downloadRootCache root = true then 0 else 1) := by
  induction calls with
  | nil =>
    intro s
    exact ⟨[], rfl, rfl, fun root => by simp [callsOn]⟩
  | cons c calls ih =>
    intro s
    obtain ⟨p, w⟩ := c
    rcases hres : resolveRoot ext p w with ⟨e | r, w'⟩
    · -- the resolution failed: no event, same cache
      have hdp := downloadPackage_error ext p { s with world := w } e w' hres
      obtain ⟨segs, hsegs, hlen, hb⟩ := ih { s with world := w' }
      refine ⟨[] :: segs, ?_, by simp [hlen], ?_⟩
      · simp [downloadPackageSeq, hdp, hsegs]
      · intro root
        simpa [callsOn] using hb root
    · cases hc : s.downloadRootCache r.root
      · -- a new root
        obtain ⟨e, s', hdp, hrc, -, -, -, evs, htr, hev⟩ :=
          downloadPackage_fresh ext p { s with world := w } r w' hres hc
        obtain ⟨segs, hsegs, hlen, hb⟩ := ih s'
        refine ⟨(Event.rootCached r.root :: evs) :: segs, ?_, by simp [hlen], ?_⟩
        · simp [downloadPackageSeq, hdp, hsegs, htr]
        · intro root
          have hrest := hb root
          rw [hrc] at hrest
          by_cases hroot : root = r.root
          · subst hroot
            simp only [mapSet, if_true] at hrest
            simp only [callsOn] at hrest ⊢
            rw [List.filter_cons]
            have h0 : (List.filter (fun seg => seg.any (Event.isDriverOpOn r.root)) segs).length
                = 0 := Nat.le_zero.mp hrest
            split
            · rw [List.length_cons, h0]; simp [hc]
            · rw [h0]; simp
          · have hnone : (Event.rootCached r.root :: evs).any (Event.isDriverOpOn root) = false := by
              rw [List.any_eq_false]
              intro ev hm
              rcases List.mem_cons.mp hm with rfl | hm
              · simp [Event.isDriverOpOn]
              · intro hon
                exact hroot ((hev ev hm).2.2 root hon)
            simp only [mapSet, hroot, if_false] at hrest
            simp only [callsOn] at hrest ⊢
            rw [List.filter_cons, hnone]
            simpa using hrest
      · -- a root that is in the cache already: no event, same cache
        have hdp := downloadPackage_cached ext p { s with world := w } r w' hres hc
        obtain ⟨segs, hsegs, hlen, hb⟩ := ih { s with world := w' }
        refine ⟨[] :: segs, ?_, by simp [hlen], ?_⟩
        · simp [downloadPackageSeq, hdp, hsegs]
        · intro root
          simpa [callsOn] using hb root

theorem pop_push (s : importStack) (a : GoString) : importStack.pop (importStack.push s a) = s := by
  simp [importStack.pop, importStack.push]

theorem reloadAll_spec {W : Type} (ext : Externals W) (args : List GoString) :
    ∀ (pkgs : List Package) (s : State W),
      (reloadAll ext args pkgs s).2.stk = s.stk ∧
      (reloadAll ext args pkgs s).2.downloadCache = s.downloadCache ∧
      ∀ q ∈ (reloadAll ext args pkgs s).1, q ∈ pkgs ∨ Loaded ext q := by
  induction args with
  | nil => intro pkgs s; exact ⟨rfl, rfl, fun q hq => Or.inl hq⟩
  | cons a args ih =>
    intro pkgs s
    rcases hload : ext.loadPackage a (importStack.push s.stk a) s.world with ⟨p, w⟩
    have hp : Loaded ext p := ⟨a, importStack.push s.stk a, s.world, by rw [hload]⟩
    simp only [reloadAll, hload, pop_push]
    cases hE : p.Error with
    | some e =>
      simp only []
      obtain ⟨h1, h2, h3⟩ := ih pkgs
        { stk := s.stk, downloadCache := s.downloadCache,
          downloadRootCache := s.downloadRootCache, errors := s.errors ++ [e],
          trace := s.trace ++ [Event.load a (importStack.push s.stk a)], world := w }
      exact ⟨h1, h2, h3⟩
    | none =>
      simp only []
      obtain ⟨h1, h2, h3⟩ := ih (pkgs ++ [p])
        { stk := s.stk, downloadCache := s.downloadCache,
          downloadRootCache := s.downloadRootCache, errors := s.errors,
          trace := s.trace ++ [Event.load a (importStack.push s.stk a)], world := w }
      refine ⟨h1, h2, ?_⟩
      intro q hq
      rcases h3 q hq with h | h
      · rcases List.mem_append.mp h with h | h
        · exact Or.inl h
        · right
          have : q = p := by simpa using h
          rw [this]; exact hp
      · exact Or.inr h

theorem fetchBlock_spec {W : Type} (ext : Externals W) (arg : GoString) (p : Package) (wo : Bool)
    (s : State W) :
    ∃ s' r, fetchBlock ext arg p wo s = some (s', r) ∧
      s'.downloadCache = s.downloadCache ∧
      ∀ pkgs, r = some pkgs → ∀ q ∈ pkgs, Loaded ext q := by
  obtain ⟨e, p', s1, hdp, hstk, hdc, -, -⟩ := downloadPackage_frame ext p
    { s with stk := importStack.push s.stk p.ImportPath,
             trace := s.trace ++ [Event.fetch p.ImportPath] }
  cases e with
  | some err =>
    simp only [fetchBlock, hdp]
    exact ⟨_, _, rfl, hdc, by simp⟩
  | none =>
    simp only [fetchBlock, hdp]
    generalize hargs : (if (wo && Contains arg "...".toList) = true then
        if IsLocalImport arg = true then ext.matchPackagesInFS arg s1.world
        else ext.matchPackages arg s1.world
      else [arg]) = args
    obtain ⟨h1, h2, h3⟩ := reloadAll_spec ext args []
      { s1 with world := evictAll ext args s1.world }
    refine ⟨_, _, rfl, h2.trans hdc, ?_⟩
    intro pkgs hpk q hq
    have : pkgs = (reloadAll ext args [] { s1 with world := evictAll ext args s1.world }).1 := by
      simpa using hpk.symm
    rw [this] at hq
    rcases h3 q hq with h | h
    · simp at h
    · exact h

theorem unvisited_mono (nodes : List GoString) (c c' : GoString → Bool)
    (h : ∀ k, c k = true → c' k = true) : unvisited nodes c' ≤ unvisited nodes c := by
  apply Finset.card_le_card
  intro n hn
  simp only [Finset.mem_filter] at hn ⊢
  refine ⟨hn.1, ?_⟩
  cases hc : c n
  · rfl
  · rw [h n hc] at hn; exact absurd hn.2 (by simp)

theorem unvisited_mapSet (nodes : List GoString) (c : GoString → Bool) (arg : GoString)
    (hmem : arg ∈ nodes) (hc : c arg = false) :
    unvisited nodes (mapSet c arg) < unvisited nodes c := by
  apply Finset.card_lt_card
  rw [Finset.ssubset_iff_of_subset]
  · refine ⟨arg, ?_, ?_⟩
    · simp [hmem, hc]
    · simp [mapSet]
  · intro n hn
    simp only [Finset.mem_filter, mapSet] at hn ⊢
    refine ⟨hn.1, ?_⟩
    by_cases h : n = arg
    · simp [h] at hn
    · simpa [h] using hn.2

theorem foldlM_deps {W : Type} (ext : Externals W) (nodes : List GoString) (fuel : Nat)
    (ih : ∀ arg (s : State W), arg ∈ nodes → unvisited nodes s.downloadCache < fuel →
      ∃ s', download ext fuel arg s = some s' ∧
        ∀ k, s.downloadCache k = true → s'.downloadCache k = true)
    (deps : List GoString) (hdeps : ∀ d ∈ deps, d ∈ nodes) :
    ∀ s : State W, unvisited nodes s.downloadCache < fuel →
      ∃ s', deps.foldlM (fun s dep => download ext fuel dep s) s = some s' ∧
        ∀ k, s.downloadCache k = true → s'.downloadCache k = true := by
  induction deps with
  | nil => intro s _; exact ⟨s, rfl, fun _ h => h⟩
  | cons d deps ihd =>
    intro s hs
    obtain ⟨s1, h1, m1⟩ := ih d s (hdeps d (List.mem_cons_self _ _)) hs
    have hs1 : unvisited nodes s1.downloadCache < fuel :=
      lt_of_le_of_lt (unvisited_mono nodes _ _ m1) hs
    obtain ⟨s2, h2, m2⟩ := ihd (fun d' h => hdeps d' (List.mem_cons_of_mem _ h)) s1 hs1
    refine ⟨s2, ?_, fun k hk => m2 k (m1 k hk)⟩
    rw [List.foldlM_cons, h1]
    exact h2

theorem foldlM_pkgs {W : Type} (ext : Externals W) (nodes : List GoString) (fuel : Nat)
    (ih : ∀ arg (s : State W), arg ∈ nodes → unvisited nodes s.downloadCache < fuel →
      ∃ s', download ext fuel arg s = some s' ∧
        ∀ k, s.downloadCache k = true → s'.downloadCache k = true)
    (pkgs : List Package) (hpk : ∀ q ∈ pkgs, ∀ d ∈ q.deps, d ∈ nodes) :
    ∀ s : State W, unvisited nodes s.downloadCache < fuel →
      ∃ s', pkgs.foldlM
          (fun s p => p.deps.foldlM (fun s dep => download ext fuel dep s) s) s = some s' ∧
        ∀ k, s.downloadCache k = true → s'.downloadCache k = true := by
  induction pkgs with
  | nil => intro s _; exact ⟨s, rfl, fun _ h => h⟩
  | cons q pkgs ihp =>
    intro s hs
    obtain ⟨s1, h1, m1⟩ := foldlM_deps ext nodes fuel ih q.deps
      (hpk q (List.mem_cons_self _ _)) s hs
    have hs1 : unvisited nodes s1.downloadCache < fuel :=
      lt_of_le_of_lt (unvisited_mono nodes _ _ m1) hs
    obtain ⟨s2, h2, m2⟩ := ihp (fun q' h => hpk q' (List.mem_cons_of_mem _ h)) s1 hs1
    refine ⟨s2, ?_, fun k hk => m2 k (m1 k hk)⟩
    rw [List.foldlM_cons, h1]
    exact h2

/-- With more fuel than unvisited identifiers, `download` returns. -/
theorem download_returns {W : Type} (ext : Externals W) (nodes : List GoString)
    (hdeps : ∀ a stk w, ∀ d ∈ (ext.loadPackage a stk w).1.deps, d ∈ nodes) :
    ∀ fuel arg (s : State W), arg ∈ nodes → unvisited nodes s.downloadCache < fuel →
      ∃ s', download ext fuel arg s = some s' ∧
        ∀ k, s.downloadCache k = true → s'.downloadCache k = true := by
  intro fuel
  induction fuel with
  | zero => intro arg s _ h; exact absurd h (Nat.not_lt_zero _)
  | succ fuel ih =>
    intro arg s hmem hs
    rcases hload : ext.loadPackage arg s.stk s.world with ⟨p, w⟩
    have hp : Loaded ext p := ⟨arg, s.stk, s.world, by rw [hload]⟩
    have hloaded : ∀ q, Loaded ext q → ∀ d ∈ q.deps, d ∈ nodes := by
      rintro q ⟨a, stk, w', rfl⟩
      exact hdeps a stk w'
    simp only [download, hload]
    by_cases hstd : p.Standard = true
    · simp only [hstd, if_true]
      exact ⟨_, rfl, fun _ h => h⟩
    · simp only [hstd, if_false]
      by_cases hc : s.downloadCache arg = true
      · simp only [hc, if_true]
        exact ⟨_, rfl, fun _ h => h⟩
      · have hc' : s.downloadCache arg = false := by simpa using hc
        simp only [hc, if_false]
        have hlt : unvisited nodes (mapSet s.downloadCache arg) < fuel := by
          have := unvisited_mapSet nodes s.downloadCache arg hmem hc'
          omega
        have hmono : ∀ k, s.downloadCache k = true → mapSet s.downloadCache arg k = true := by
          intro k hk
          simp only [mapSet]
          split
          · rfl
          · exact hk
        by_cases hneed : p.Dir = [] ∨ ext.getU = true
        · simp only [hneed, if_true]
          obtain ⟨s3, r, hfb, hdc, hr⟩ := fetchBlock_spec ext arg p (s.stk.length == 0)
            { stk := s.stk, downloadCache := mapSet s.downloadCache arg,
              downloadRootCache := s.downloadRootCache, errors := s.errors,
              trace := s.trace ++ [Event.enter arg s.stk] ++ [Event.load arg s.stk], world := w }
          simp only [hfb]
          cases r with
          | none =>
            refine ⟨s3, rfl, ?_⟩
            intro k hk
            rw [hdc]
            exact hmono k hk
          | some pkgs =>
            have hs3 : unvisited nodes s3.downloadCache < fuel := by rw [hdc]; exact hlt
            obtain ⟨s4, h4, m4⟩ := foldlM_pkgs ext nodes fuel ih pkgs
              (fun q hq => hloaded q (hr pkgs rfl q hq)) s3 hs3
            refine ⟨s4, h4, ?_⟩
            intro k hk
            apply m4
            rw [hdc]
            exact hmono k hk
        · simp only [hneed, if_false]
          obtain ⟨s4, h4, m4⟩ := foldlM_pkgs ext nodes fuel ih [p]
            (fun q hq => by
              have : q = p := by simpa using hq
              rw [this]; exact hloaded p hp)
            { stk := s.stk, downloadCache := mapSet s.downloadCache arg,
              downloadRootCache := s.downloadRootCache, errors := s.errors,
              trace := s.trace ++ [Event.enter arg s.stk] ++ [Event.load arg s.stk], world := w }
            hlt
          exact ⟨s4, h4, fun k hk => m4 k (hmono k hk)⟩

theorem unvisited_le_length (nodes : List GoString) (c : GoString → Bool) :
    unvisited nodes c ≤ nodes.length :=
  le_trans (Finset.card_filter_le _ _) (List.toFinset_card_le nodes)

/-- C6: when every dependency that the loader can report lies in the finite
list `nodes`, `download` returns from every starting identifier and every
state, whatever the cycles among the identifiers, once its depth bound
exceeds the number of identifiers by two; it only adds to `downloadCache`. -/
theorem download_terminates {W : Type} (ext : Externals W) (nodes : List GoString)
    (hdeps : ∀ a stk w, ∀ d ∈ (ext.loadPackage a stk w).1.deps, d ∈ nodes)
    (arg : GoString) (s : State W) (fuel : Nat) (hfuel : nodes.length + 2 ≤ fuel) :
    ∃ s', download ext fuel arg s = some s' ∧
      ∀ k, s.downloadCache k = true → s'.downloadCache k = true := by
  apply download_returns ext (arg :: nodes)
    (fun a stk w d hd => List.mem_cons_of_mem _ (hdeps a stk w d hd)) fuel arg s
    (List.mem_cons_self _ _)
  have := unvisited_le_length (arg :: nodes) s.downloadCache
  simp only [List.length_cons] at this
  omega

/-- C6 in the small world, where `a` and `b` import each other. -/
theorem download_terminates_witness :
    ∃ s', download exampleExt 5 "a".toList (initialState ()) = some s' ∧
      ∀ k, (initialState ()).downloadCache k = true → s'.downloadCache k = true :=
  download_terminates exampleExt ["a".toList, "b".toList, "c".toList]
    (by
      intro a stk w d hd
      have h : d ∈ (exampleLoad a).deps := hd
      unfold exampleLoad at h
      split_ifs at h <;> simp at h <;> simp [h])
    "a".toList (initialState ()) 5 (by decide)

/-- C9: when the identifier is not standard, not yet in `downloadCache` and
needs a fetch, and `downloadPackage` returns an error, `download` returns
having reported exactly one more error, whose import stack is the entry stack
with the import path of the package appended; the stack is the entry stack
again; and the only steps of the walk were entering, loading the identifier
and the fetch: no dependency was downloaded and no package reloaded. -/
theorem download_fetch_failure {W : Type} (ext : Externals W) (fuel : Nat) (arg : GoString) (s : State W)
    (p : Package) (w : W) (err : GoString) (p' : Package) (s2 : State W)
    (hload : ext.loadPackage arg s.stk s.world = (p, w))
    (hstd : p.Standard = false)
    (hnew : s.downloadCache arg = false)
    (hneed : p.Dir = [] ∨ ext.getU = true)
    (hfail : downloadPackage ext p (stateAtFetch arg p w s) = some (some err, p', s2)) :
    ∃ s', download ext (fuel + 1) arg s = some s' ∧
      s'.errors = s.errors ++ [PackageError.mk (s.stk ++ [p.ImportPath]) err] ∧
      s'.stk = s.stk ∧
      s'.trace.filter Event.isWalk =
        s.trace.filter Event.isWalk ++
          [Event.enter arg s.stk, Event.load arg s.stk, Event.fetch p.ImportPath] := by
  obtain ⟨e0, p0, s0, hdp, hstk, -, herr, evs, htr, hev⟩ :=
    downloadPackage_frame ext p (stateAtFetch arg p w s)
  rw [hfail] at hdp
  simp only [Option.some.injEq, Prod.mk.injEq] at hdp
  obtain ⟨-, -, rfl⟩ := hdp
  have hfb : fetchBlock ext arg p (s.stk.length == 0)
      { stk := s.stk, downloadCache := mapSet s.downloadCache arg,
        downloadRootCache := s.downloadRootCache, errors := s.errors,
        trace := s.trace ++ [Event.enter arg s.stk] ++ [Event.load arg s.stk], world := w }
      = some ({ s2 with errors := s2.errors ++ [PackageError.mk (importStack.copy s2.stk) err],
                        stk := importStack.pop s2.stk }, none) := by
    have : downloadPackage ext p
        { stk := importStack.push s.stk p.ImportPath, downloadCache := mapSet s.downloadCache arg,
          downloadRootCache := s.downloadRootCache, errors := s.errors,
          trace := s.trace ++ [Event.enter arg s.stk] ++ [Event.load arg s.stk]
            ++ [Event.fetch p.ImportPath], world := w } = some (some err, p', s2) := hfail
    simp only [fetchBlock, this]
  refine ⟨{ s2 with errors := s2.errors ++ [PackageError.mk (importStack.copy s2.stk) err],
                    stk := importStack.pop s2.stk }, ?_, ?_, ?_, ?_⟩
  · simp only [download, hload, hstd, hnew, hneed, if_true, Bool.false_eq_true, if_false, hfb]
  · simp only [herr, hstk, stateAtFetch, importStack.copy, importStack.push]
  · simp only [hstk, stateAtFetch, pop_push]
  · have hnil : evs.filter Event.isWalk = [] := by
      rw [List.filter_eq_nil_iff]
      intro ev hm
      rw [hev ev hm]
      simp
    simp only [htr, stateAtFetch, List.filter_append, hnil, List.append_nil]
    simp [Event.isWalk]

/-- C9 in the small world whose resolver recognises no import path. -/
theorem download_fetch_failure_witness :
    ∃ s', download failingExt 1 "c".toList (initialState ()) = some s' ∧
      s'.errors = (initialState ()).errors ++
        [PackageError.mk ((initialState ()).stk ++ [(exampleLoad "c".toList).ImportPath])
          "unrecognized import path".toList] ∧
      s'.stk = (initialState ()).stk ∧
      s'.trace.filter Event.isWalk =
        (initialState ()).trace.filter Event.isWalk ++
          [Event.enter "c".toList (initialState ()).stk, Event.load "c".toList (initialState ()).stk,
           Event.fetch (exampleLoad "c".toList).ImportPath] :=
  download_fetch_failure failingExt 0 "c".toList (initialState ()) (exampleLoad "c".toList) ()
    "unrecognized import path".toList (exampleLoad "c".toList)
    (stateAtFetch "c".toList (exampleLoad "c".toList) () (initialState ()))
    rfl (by decide) rfl (Or.inl (by decide)) (by rfl)

/-- C1 at the version `1.4` and the tags `1.2`, `1.3`, `1.5`, `1.4`. -/
theorem selectTag_dotted_greatest_witness :
    goTag "1.4".toList = true ∧
      (∃ r, selectTag "1.4".toList ["1.2".toList, "1.3".toList, "1.5".toList, "1.4".toList]
          = some r ∧
        (r = [] ↔ ∀ t ∈ ["1.2".toList, "1.3".toList, "1.5".toList, "1.4".toList],
          goTag t = true → cmpLe t "1.4".toList = false) ∧
        (r ≠ [] → r ∈ ["1.2".toList, "1.3".toList, "1.5".toList, "1.4".toList] ∧
          goTag r = true ∧ cmpLe r "1.4".toList = true ∧
          ∀ t ∈ ["1.2".toList, "1.3".toList, "1.5".toList, "1.4".toList],
            goTag t = true → cmpLe t "1.4".toList = true → cmpLe t r = true)) ∧
      selectTag "1.4".toList ["1.2".toList, "1.3".toList, "1.5".toList, "1.4".toList]
        = some "1.4".toList ∧
      selectTag "1.4".toList ["1.2".toList, "1.3".toList] = some "1.3".toList ∧
      selectTag "0.5".toList ["1.0".toList, "2.0".toList] = some [] :=
  ⟨by decide, selectTag_dotted_greatest "1.4".toList
    ["1.2".toList, "1.3".toList, "1.5".toList, "1.4".toList] (by decide),
    by decide, by decide, by decide⟩

/-- C2 fails as stated: `10`, `1.10` and `1000.1` are dot-separated sequences
of integers without leading zeros, and `goTag` rejects each of them; so
`cmpGoVersion("1.10", "1.9")` is `-1` and `selectTag("1.10", ["1.9"])` is the
empty string. -/
theorem goTag_rejects_long_numbers :
    (specDottedNumeric "10".toList = true ∧ goTag "10".toList = false) ∧
    (specDottedNumeric "1.10".toList = true ∧ goTag "1.10".toList = false) ∧
    (specDottedNumeric "1000.1".toList = true ∧ goTag "1000.1".toList = false) ∧
    cmpGoVersion "1.10".toList "1.9".toList = some (-1) ∧
    selectTag "1.10".toList ["1.9".toList] = some [] := by
  decide

/-- C2 as amended: a string matches `goTag` if and only if it is a non-empty
dot-separated sequence of non-negative decimal integers without unnecessary
leading zeros in which every integer but the last has at most three digits
and the last is a single digit.  So `2.0` and `1.9` are well-formed,
`cmpGoVersion("2.0", "1.9")` is `+1` and `selectTag("2.0", ["1.9"])` is `1.9`. -/
theorem goTag_iff_smallDottedNumeric :
    (∀ s : GoString, goTag s = true ↔ smallDottedNumeric s = true) ∧
    cmpGoVersion "2.0".toList "1.9".toList = some 1 ∧
    selectTag "2.0".toList ["1.9".toList] = some "1.9".toList :=
  ⟨goTag_matches_small_form, by decide, by decide⟩

/-- C3: when at least one of `x`, `y` matches `goTag`, `cmpGoVersion(x, y)` is
the comparator of the specification: `-1` when `x` is malformed, `+1` when `x`
is well-formed and `y` malformed, and for two well-formed strings the
comparison of their integer sequences position by position, a strict prefix
being the smaller, with `0` exactly when the sequences are equal. -/
theorem cmpGoVersion_eq_specCompare (x y : GoString) (h : goTag x = true ∨ goTag y = true) :
    cmpGoVersion x y = specCompare x y ∧
      (goTag x = false → cmpGoVersion x y = some (-1)) ∧
      (goTag x = true → goTag y = false → cmpGoVersion x y = some 1) ∧
      (goTag x = true → goTag y = true →
        cmpGoVersion x y = some (compareSeq (versionSeq x) (versionSeq y)) ∧
        (cmpGoVersion x y = some 0 ↔ versionSeq x = versionSeq y)) := by
  refine ⟨?_, fun hx => cmpGoVersion_malformed x y hx,
    fun hx hy => cmpGoVersion_wf_malformed x y hx hy, ?_⟩
  · cases hx : goTag x
    · have hy : goTag y = true := by
        rcases h with h | h
        · rw [hx] at h; exact absurd h (by simp)
        · exact h
      simp [specCompare, hx, hy, cmpGoVersion_malformed x y hx]
    · cases hy : goTag y
      · simp [specCompare, hx, hy, cmpGoVersion_wf_malformed x y hx hy]
      · simp [specCompare, hx, hy, cmpGoVersion_wf x y hx hy]
  · intro hx hy
    refine ⟨cmpGoVersion_wf x y hx hy, ?_⟩
    rw [cmpGoVersion_wf x y hx hy, Option.some.injEq, compareSeq_eq_zero]

/-- C3 at `1.2` and `1.2.0`. -/
theorem cmpGoVersion_eq_specCompare_witness :
    (goTag "1.2".toList = true ∨ goTag "1.2.0".toList = true) ∧
      (cmpGoVersion "1.2".toList "1.2.0".toList = specCompare "1.2".toList "1.2.0".toList ∧
        (goTag "1.2".toList = false → cmpGoVersion "1.2".toList "1.2.0".toList = some (-1)) ∧
        (goTag "1.2".toList = true → goTag "1.2.0".toList = false →
          cmpGoVersion "1.2".toList "1.2.0".toList = some 1) ∧
        (goTag "1.2".toList = true → goTag "1.2.0".toList = true →
          cmpGoVersion "1.2".toList "1.2.0".toList
              = some (compareSeq (versionSeq "1.2".toList) (versionSeq "1.2.0".toList)) ∧
          (cmpGoVersion "1.2".toList "1.2.0".toList = some 0 ↔
            versionSeq "1.2".toList = versionSeq "1.2.0".toList))) ∧
      cmpGoVersion "1.2".toList "1.2.0".toList = some (-1) ∧
      cmpGoVersion "abc".toList "1.0".toList = some (-1) ∧
      cmpGoVersion "1.0".toList "abc".toList = some 1 :=
  ⟨Or.inl (by decide),
    cmpGoVersion_eq_specCompare "1.2".toList "1.2.0".toList (Or.inl (by decide)),
    by decide, by decide, by decide⟩

/-- C4 at a failing input: for the version `9.0.weekly.2015-10-31` the tag
`release-9.0.weekly.2016-01-01` contains `9.0.weekly.`, the part after the
marker, `2016-01-01`, is not `<= 2015-10-31`, and `selectTag` returns the tag
all the same, because `t[len(p):]` cuts the tag from its start. -/
theorem selectTag_weekly_slices_from_start :
    selectTag "9.0.weekly.2015-10-31".toList ["release-9.0.weekly.2016-01-01".toList]
        = some "release-9.0.weekly.2016-01-01".toList ∧
      Contains "release-9.0.weekly.2016-01-01".toList "9.0.weekly.".toList = true ∧
      "release-9.0.weekly.2016-01-01".toList
        = "release-".toList ++ "9.0.weekly.".toList ++ "2016-01-01".toList ∧
      strLe "2016-01-01".toList "2015-10-31".toList = false := by
  decide

/-- C5 at a failing input: the download of `c`, whose fetch succeeds, entered
with an empty stack returns with the stack `[c]`; in `runGet` on the
arguments `c`, `a` the download of `a` is entered with the stack `[c]`. -/
theorem download_success_keeps_push :
    (download exampleExt 1 "c".toList (initialState ())).map (fun s => s.stk)
        = some ["c".toList] ∧
      (runGet exampleExt 4 ["c".toList, "a".toList] ()).map
          (fun s => s.trace.filter (fun ev => ev == Event.enter "a".toList ["c".toList]
            || ev == Event.enter "a".toList []))
        = some [Event.enter "a".toList ["c".toList]] := by
  decide

/-- C7: a call of `downloadPackage` whose destination root is in
`downloadRootCache` returns success, adds no event and leaves the cache as it
was; a call whose root is not yet there records it before any driver
operation, and its driver operations are all on that root; hence in a
sequence of calls that starts from the empty cache at most one call runs
driver operations for a given root. -/
theorem downloadPackage_root_once {W : Type} (ext : Externals W) :
    (∀ (p : Package) (s : State W) (r : Resolved) (w : W),
        resolveRoot ext p s.world = (.ok r, w) → s.downloadRootCache r.root = true →
        downloadPackage ext p s = some (none, r.p, { s with world := w })) ∧
    (∀ (p : Package) (s : State W) (r : Resolved) (w : W),
        resolveRoot ext p s.world = (.ok r, w) → s.downloadRootCache r.root = false →
        ∃ e s' evs, downloadPackage ext p s = some (e, r.p, s') ∧
          s'.downloadRootCache = mapSet s.downloadRootCache r.root ∧
          s'.trace = s.trace ++ Event.rootCached r.root :: evs ∧
          ∀ ev ∈ evs, ∀ r', ev.isDriverOpOn r' = true → r' = r.root) ∧
    (∀ (calls : List (Package × W)) (w0 : W),
        ∃ segs, downloadPackageSeq ext calls (initialState w0) = some segs ∧
          segs.length = calls.length ∧ ∀ root, callsOn root segs ≤ 1) := by
  refine ⟨fun p s r w h hc => downloadPackage_cached ext p s r w h hc, ?_, ?_⟩
  · intro p s r w h hc
    obtain ⟨e, s', hdp, hrc, -, -, -, evs, htr, hev⟩ := downloadPackage_fresh ext p s r w h hc
    exact ⟨e, s', evs, hdp, hrc, htr, fun ev hm => (hev ev hm).2.2⟩
  · intro calls w0
    obtain ⟨segs, hs, hl, hb⟩ := downloadPackageSeq_bound ext calls (initialState w0)
    exact ⟨segs, hs, hl, fun root => by simpa [initialState] using hb root⟩

/-- C8 fails as stated: with the workspace list `[goroot, "/w"]` the first
entry that differs from the installation root is `/w`, and `downloadPackage`
sets the source root to the subdirectory `oPath` of the installation root. -/
theorem srcRoot_looks_at_first_entry_only :
    exampleExt.gopathList = [exampleExt.goroot, "/w".toList] ∧
      specSrcRoot exampleExt = "/w".toList ∧
      (downloadPackage exampleExt (exampleLoad "c".toList) (initialState ())).map
          (fun r => r.2.1.SrcRoot)
        = some "/go/oPath".toList := by
  decide

/-- C8 as amended: when the package has no known source root and its import
path resolves to a repository root, `downloadPackage` sets the source root to
the first entry of the workspace-path list when that entry differs from the
installation root, and to the fixed subdirectory beneath the installation
root when the list is empty or its first entry is the installation root. -/
theorem downloadPackage_srcRoot {W : Type} (ext : Externals W) (p : Package) (s : State W)
    (rr : RepoRoot) (w : W) (hsrc : p.SrcRoot = [])
    (hres : ext.repoRootForImportPath p.ImportPath s.world = (.ok rr, w)) :
    ∃ e p' s', downloadPackage ext p s = some (e, p', s') ∧
      (∀ l0 rest, ext.gopathList = l0 :: rest → l0 ≠ ext.goroot → p'.SrcRoot = l0) ∧
      ((ext.gopathList = [] ∨ ext.gopathList.head? = some ext.goroot) →
        p'.SrcRoot = ext.Join ext.goroot "oPath".toList) := by
  have hr : resolveRoot ext p s.world =
      (.ok { vcs := rr.vcs, repo := rr.repo, rootPath := rr.root,
             p := { p with SrcRoot := chooseSrcRoot ext },
             root := ext.Join (chooseSrcRoot ext) rr.root }, w) := by
    simp [resolveRoot, hsrc, hres]
  have hchoice : (∀ l0 rest, ext.gopathList = l0 :: rest → l0 ≠ ext.goroot →
        chooseSrcRoot ext = l0) ∧
      ((ext.gopathList = [] ∨ ext.gopathList.head? = some ext.goroot) →
        chooseSrcRoot ext = ext.Join ext.goroot "oPath".toList) := by
    constructor
    · intro l0 rest hl hne
      simp [chooseSrcRoot, hl, hne]
    · rintro (hl | hl)
      · simp [chooseSrcRoot, hl]
      · cases hg : ext.gopathList with
        | nil => simp [chooseSrcRoot, hg]
        | cons l0 rest =>
          rw [hg] at hl
          have : l0 = ext.goroot := by simpa using hl
          simp [chooseSrcRoot, hg, this]
  cases hc : s.downloadRootCache (ext.Join (chooseSrcRoot ext) rr.root)
  · obtain ⟨e, s', hdp, -⟩ := downloadPackage_fresh ext p s _ w hr hc
    exact ⟨e, _, s', hdp, hchoice⟩
  · exact ⟨_, _, _, downloadPackage_cached ext p s _ w hr hc, hchoice⟩

/-- C8 as amended, in the small world. -/
theorem downloadPackage_srcRoot_witness :
    (exampleLoad "c".toList).SrcRoot = [] ∧
      ∃ e p' s', downloadPackage exampleExt (exampleLoad "c".toList) (initialState ())
          = some (e, p', s') ∧
        (∀ l0 rest, exampleExt.gopathList = l0 :: rest → l0 ≠ exampleExt.goroot →
          p'.SrcRoot = l0) ∧
        ((exampleExt.gopathList = [] ∨ exampleExt.gopathList.head? = some exampleExt.goroot) →
          p'.SrcRoot = exampleExt.Join exampleExt.goroot "oPath".toList) :=
  ⟨by decide, downloadPackage_srcRoot exampleExt (exampleLoad "c".toList) (initialState ())
    { vcs := "git".toList, repo := "https://example.org/c".toList, root := "c".toList } ()
    (by decide) (by rfl)⟩

/-- C10: `selectTag` and `cmpGoVersion` return for every input (no index or
slice is out of range); `SplitAfter` of a version that contains the marker has
an element `[1]`; a tag that contains `p` is at least as long as `p`; and every
dot-separated component of two strings that match `goTag` is parsed by `Atoi`
without error. -/
theorem selectTag_cmpGoVersion_total :
    (∀ (v : GoString) (tags : List GoString), ∃ r, selectTag v tags = some r) ∧
    (∀ x y : GoString, ∃ c, cmpGoVersion x y = some c) ∧
    (∀ v : GoString, Contains v wMark = true →
      ∃ p w rest, SplitAfter v wMark = p :: w :: rest) ∧
    (∀ t p : GoString, Contains t p = true → p.length ≤ t.length) ∧
    (∀ x y : GoString, goTag x = true → goTag y = true →
      (∀ c ∈ Split x ".".toList, (Atoi c).2 = false) ∧
      (∀ c ∈ Split y ".".toList, (Atoi c).2 = false)) := by
  refine ⟨fun v tags => Option.isSome_iff_exists.mp (selectTag_isSome v tags),
    fun x y => Option.isSome_iff_exists.mp (cmpGoVersion_isSome x y),
    SplitAfter_two, Contains_length, ?_⟩
  intro x y hx hy
  exact ⟨fun c hc => by rw [goTag_Atoi x hx c hc], fun c hc => by rw [goTag_Atoi y hy c hc]⟩

end Godoo
